import Mathlib

/-!
Shallow embedding of the incremental log store of `src/crawler.py`
(repository `wandb-log-crawler`).

Modelling conventions:
* Python strings are Lean `String`s; the Python operations used by the code
  (`str.split` on a one-character separator, `str.strip`, substring test
  `in`, `''.join`) are implemented over the underlying `List Char`.
* `datetime.strptime(ts, '%Y-%m-%dT%H:%M:%S.%f')` is modelled by `strptime`
  below, following CPython's `_strptime` regex semantics for that format
  (field widths, the optional leading space of `%d`, 1-6 fractional digits
  padded to microseconds, case-insensitive literal `T`) together with the
  `datetime` constructor's range checks (year >= 1, valid day of month,
  second <= 59).  A parse failure models the Python `ValueError`.
* The file system is a map from path strings to file contents; a file's
  contents are the list of its newline-terminated lines (each `f.write`
  of the crawler emits exactly one line; contents are taken newline-free,
  matching the per-line delivery of the remote API).  Directories are not
  modelled separately: creating the owning directory has no observable
  effect beyond the file itself.
* Fallible code (the `ValueError` raised while parsing a timestamp) is
  explicit: each operation returns its partially-updated file system
  together with a success flag, mirroring the fact that lines written
  before the exception stay on disk (`with open(...)` flushes on unwind).
-/

namespace WandbCrawler

/-- Characters stripped by Python's `str.strip()` (`str.isspace`):
ASCII whitespace and separators 9-13, 28-32, and the Unicode space
code points. -/
def isPySpace (c : Char) : Bool :=
  (9 ≤ c.toNat && c.toNat ≤ 13) || (28 ≤ c.toNat && c.toNat ≤ 32) ||
    c.toNat = 133 || c.toNat = 160 || c.toNat = 5760 ||
    (8192 ≤ c.toNat && c.toNat ≤ 8202) || c.toNat = 8232 || c.toNat = 8233 ||
    c.toNat = 8239 || c.toNat = 8287 || c.toNat = 12288

/-- `str.strip()` on the character list: drop whitespace from both ends. -/
def stripList (l : List Char) : List Char :=
  ((l.dropWhile isPySpace).reverse.dropWhile isPySpace).reverse

/-- `str.strip()`. -/
def pyStrip (s : String) : String := String.mk (stripList s.data)

/-- Split a character list at every character satisfying `p`
(the list of separated chunks; always non-empty, like Python `str.split(sep)`
with a one-character `sep`). -/
def splitCharP (p : Char → Bool) : List Char → List (List Char)
  | [] => [[]]
  | x :: xs =>
    match splitCharP p xs with
    | [] => [[]]
    | q :: qs => if p x then [] :: q :: qs else (x :: q) :: qs

/-- Python `s.split(c)` for a one-character separator. -/
def pySplit (c : Char) (s : String) : List String :=
  (splitCharP (fun x => x = c) s.data).map String.mk

/-- ASCII decimal digit test. -/
def isDig (c : Char) : Bool := 48 ≤ c.toNat && c.toNat ≤ 57

/-- Value of one ASCII digit. -/
def digVal (c : Char) : Nat := c.toNat - 48

/-- Value of a digit string read left to right. -/
def digitsVal (l : List Char) : Nat := l.foldl (fun a c => a * 10 + digVal c) 0

/-- A 1-2 digit numeric field of the `_strptime` regex with an inclusive
value range (`%m` is `1..12`, `%H` is `0..23`, `%M`/`%S` are `0..59`:
CPython's regex admits seconds 60 and 61 but the `datetime` constructor
then rejects them, so the composed acceptance range is `0..59`). -/
def field2 (l : List Char) (lo hi : Nat) : Option Nat :=
  if (l.length = 1 || l.length = 2) && l.all isDig then
    let v := digitsVal l
    if lo ≤ v && v ≤ hi then some v else none
  else none

/-- The `%d` field: 1-2 digits in `1..31`, or a space followed by `1`-`9`. -/
def dayField (l : List Char) : Option Nat :=
  match l with
  | [' ', c] => if isDig c && 1 ≤ digVal c then some (digVal c) else none
  | _ => field2 l 1 31

/-- The `%Y` field: exactly four digits; the `datetime` constructor further
requires the year to be at least 1. -/
def yearField (l : List Char) : Option Nat :=
  if l.length = 4 && l.all isDig then
    let v := digitsVal l
    if 1 ≤ v then some v else none
  else none

/-- The `%f` field: 1-6 digits, padded on the right to microseconds. -/
def fracField (l : List Char) : Option Nat :=
  if (1 ≤ l.length && l.length ≤ 6) && l.all isDig then
    some (digitsVal l * 10 ^ (6 - l.length))
  else none

/-- Gregorian leap year. -/
def isLeap (y : Nat) : Bool := y % 4 = 0 && (y % 100 ≠ 0 || y % 400 = 0)

/-- Days in a month (for the `datetime` constructor's day range check). -/
def daysInMonth (y m : Nat) : Nat :=
  if m = 2 then (if isLeap y then 29 else 28)
  else if m = 4 || m = 6 || m = 9 || m = 11 then 30
  else 31

/-- The value of a Python `datetime` produced by the crawler's parser. -/
structure PyDateTime where
  year : Nat
  month : Nat
  day : Nat
  hour : Nat
  minute : Nat
  second : Nat
  microsecond : Nat
deriving DecidableEq

/-- Order-embedding key: on constructor-valid datetimes (month <= 12,
day <= 31, hour <= 23, minute/second <= 59, microsecond < 10^6 — all
enforced by `strptime`) comparing keys agrees with Python's
field-lexicographic `datetime` comparison. -/
def PyDateTime.key (d : PyDateTime) : Nat :=
  (((((d.year * 13 + d.month) * 32 + d.day) * 24 + d.hour) * 60
      + d.minute) * 60 + d.second) * 1000000 + d.microsecond

/-- `DatatimeHandler.get_datetime_from_ts_str` /
`datetime.strptime(ts, '%Y-%m-%dT%H:%M:%S.%f')`: `none` models the
`ValueError` raised by CPython on a non-matching string. -/
def strptime (s : String) : Option PyDateTime :=
  match splitCharP (fun c => c = 'T' || c = 't') s.data with
  | [dpart, tpart] =>
    match splitCharP (fun c => c = '-') dpart with
    | [ys, ms, ds] =>
      match splitCharP (fun c => c = ':') tpart with
      | [hs, mis, rest] =>
        match splitCharP (fun c => c = '.') rest with
        | [ss, frs] =>
          match yearField ys, field2 ms 1 12, dayField ds, field2 hs 0 23,
                field2 mis 0 59, field2 ss 0 59, fracField frs with
          | some y, some mo, some da, some hh, some mi, some se, some mic =>
            if da ≤ daysInMonth y mo then some ⟨y, mo, da, hh, mi, se, mic⟩
            else none
          | _, _, _, _, _, _, _ => none
        | _ => none
      | _ => none
    | _ => none
  | _ => none

/-- The module-level tuple `levels` of `crawler.py`. -/
def levels : List String := ["SUCCESS", "TRACE", "ERROR", "WARNING", "INFO", "DEBUG"]

/-- The needle occurs at the very start of the haystack. -/
def subAt : List Char → List Char → Bool
  | [], _ => true
  | _ :: _, [] => false
  | a :: as, b :: bs => a = b && subAt as bs

/-- Python's substring test `needle in haystack`. -/
def isSub (nd : List Char) : List Char → Bool
  | [] => nd.isEmpty
  | x :: xs => subAt nd (x :: xs) || isSub nd xs

/-- `any(level in content for level in levels)`. -/
def hasLevel (content : String) : Bool :=
  levels.any (fun lv => isSub lv.data content.data)

/-- The marker-stripping step of `store_lines`:
`content = ''.join(content.split('|')[1:])` when a level tag occurs
anywhere in the content, else the content unchanged. -/
def transformContent (content : String) : String :=
  if hasLevel content then String.join ((pySplit '|' content).drop 1)
  else content

/-- `date_string = timestamp.split('T')[0]`. -/
def dateOf (ts : String) : String := (pySplit 'T' ts).headD ""

/-- One stored record: `f.write(f"{ts} | {content}\n")` (one file line). -/
def fmtEntry (e : String × String) : String := e.1 ++ " | " ++ e.2

/-- `DatatimeHandler.get_datetime_from_log`: take the part of the stored
line before the first `|`, strip whitespace, parse. -/
def lineDT (l : String) : Option PyDateTime :=
  strptime (pyStrip ((pySplit '|' l).headD ""))

/-- Timestamp of a stored line's last line: `.ok none` for a file with no
lines, `.error` models the `ValueError` when the last line's timestamp
does not parse. -/
def lastLineDT (ls : List String) : Except Unit (Option PyDateTime) :=
  match ls.getLast? with
  | none => Except.ok none
  | some l =>
    match lineDT l with
    | some dt => Except.ok (some dt)
    | none => Except.error ()

/-- The on-disk store: path string to file contents (list of lines);
`none` when no file exists at the path. -/
def FileSys : Type := String → Option (List String)

/-- A store with no files. -/
def emptyFS : FileSys := fun _ => none

/-- Overwrite one path. -/
def fsUpdate (g : FileSys) (p : String) (v : List String) : FileSys :=
  fun q => if q = p then some v else g q

/-- `os.path.join(store_path, hotkey)` followed by `f"{date}.log"`. -/
def mkPath (sp hotkey date : String) : String :=
  sp ++ "/" ++ hotkey ++ "/" ++ date ++ ".log"

/-- `WandbLogCrawler.ensure_file_exist`: create the owning directory and
an empty file when absent; no effect when the file exists. -/
def ensure_file_exist (g : FileSys) (p : String) : FileSys :=
  match g p with
  | some _ => g
  | none => fsUpdate g p []

/-- `WandbLogCrawler.get_last_store_line_datetime`: `.error` also models
the `FileNotFoundError` of opening a missing file. -/
def get_last_store_line_datetime (sp : String) (g : FileSys) (date hotkey : String) :
    Except Unit (Option PyDateTime) :=
  match g (mkPath sp hotkey date) with
  | none => Except.error ()
  | some ls => lastLineDT ls

/-- Insertion into `file_lines_map` (Python dict: first-occurrence key
order, values appended in arrival order). -/
def insertMap (m : List (String × List (String × String))) (k : String)
    (v : String × String) : List (String × List (String × String)) :=
  match m with
  | [] => [(k, [v])]
  | (k', vs) :: rest =>
    if k' = k then (k', vs ++ [v]) :: rest else (k', vs) :: insertMap rest k v

/-- The first loop of `store_lines`: strip markers, partition by the date
part of the timestamp. -/
def buildMap (lines : List (String × String)) :
    List (String × List (String × String)) :=
  lines.foldl (fun m e => insertMap m (dateOf e.1) (e.1, transformContent e.2)) []

/-- The dedup test of the write loop: a line is written when no high-water
mark exists or its timestamp is strictly greater (Python keeps the line
unless `last_line_datetime and ts_datetime <= last_line_datetime`).
`false` also when the timestamp does not parse (that case raises instead;
`writeLoop` accounts for it separately). -/
def keepB (hwm : Option PyDateTime) (ts : String) : Bool :=
  match strptime ts with
  | none => false
  | some dt =>
    match hwm with
    | none => true
    | some h => decide (h.key < dt.key)

/-- The write loop of `store_lines` over one date partition: parse each
timestamp (a failure raises, keeping the lines already written — the
`Bool` is the no-exception flag), skip lines at or before the high-water
mark, write the rest in order. -/
def writeLoop (hwm : Option PyDateTime) : List (String × String) → List String × Bool
  | [] => ([], true)
  | (ts, c) :: rest =>
    match strptime ts with
    | none => ([], false)
    | some dt =>
      let keep : Bool :=
        match hwm with
        | none => true
        | some h => decide (h.key < dt.key)
      let r := writeLoop hwm rest
      if keep then (fmtEntry (ts, c) :: r.1, r.2) else r

/-- Processing of one date partition in the second loop of `store_lines`:
ensure the file exists, read the high-water mark (a last line that fails
to parse raises with the file already ensured), append the surviving
lines. -/
def storeDate (sp hotkey : String) (g : FileSys) (date : String)
    (es : List (String × String)) : FileSys × Bool :=
  let path := mkPath sp hotkey date
  let g1 := ensure_file_exist g path
  let cur := (g1 path).getD []
  match lastLineDT cur with
  | Except.error _ => (g1, false)
  | Except.ok hwm =>
    let w := writeLoop hwm es
    (fsUpdate g1 path (cur ++ w.1), w.2)

/-- The second loop of `store_lines` over the date partitions in
first-occurrence order; an exception stops the remaining partitions. -/
def storeLinesGo (sp hotkey : String) :
    List (String × List (String × String)) → FileSys → FileSys × Bool
  | [], g => (g, true)
  | (d, es) :: rest, g =>
    let r := storeDate sp hotkey g d es
    if r.2 then storeLinesGo sp hotkey rest r.1 else r

/-- `WandbLogCrawler.store_lines`, exception-transparent form: the
resulting store (with any lines written before an exception) and the
no-exception flag. -/
def storeLinesEx (sp hotkey : String) (batch : List (String × String))
    (g : FileSys) : FileSys × Bool :=
  storeLinesGo sp hotkey (buildMap batch) g

/-- `WandbLogCrawler.store_lines`: `some` of the updated store on normal
return, `none` when the call raises. -/
def store_lines (sp hotkey : String) (batch : List (String × String))
    (g : FileSys) : Option FileSys :=
  let r := storeLinesEx sp hotkey batch g
  if r.2 then some r.1 else none

/-- One run of the remote listing: its id and the optional `hotkey` entry
of its configuration. -/
structure Run where
  id : String
  cfgHotkey : Option String

/-- `hotkey = json_config.get("hotkey", run.id)`. -/
def runHotkey (r : Run) : String := r.cfgHotkey.getD r.id

/-- The body of the per-run `try` of `execute`: fetch the run's lines
(`none` models a fetch that raises) and store them; the flag records
whether the body completed without an exception. -/
def processRun (fetch : String → Option (List (String × String))) (sp : String)
    (g : FileSys) (r : Run) : FileSys × Bool :=
  match fetch r.id with
  | none => (g, false)
  | some lines => storeLinesEx sp (runHotkey r) lines g

/-- `WandbLogCrawler.execute` over one cycle's runs: every run is
attempted in order; a per-run failure is caught (flag `false`) and the
loop continues. -/
def execute (fetch : String → Option (List (String × String))) (sp : String)
    (runs : List Run) (g : FileSys) : FileSys × List Bool :=
  match runs with
  | [] => (g, [])
  | r :: rest =>
    let p := processRun fetch sp g r
    let e := execute fetch sp rest p.1
    (e.1, p.2 :: e.2)

/-- Non-decreasing key list (specification-side sortedness test). -/
def keysSorted : List Nat → Bool
  | [] => true
  | [_] => true
  | a :: b :: r => a ≤ b && keysSorted (b :: r)

/-- Comparison key of a partition entry's timestamp (0 when it does not
parse; such an entry makes the whole call raise, so the default is never
compared under a successful call). -/
def entryKey (e : String × String) : Nat :=
  ((strptime e.1).map PyDateTime.key).getD 0

/-- Comparison key of a stored line (its timestamp part). -/
def lineKeyD (l : String) : Nat := ((lineDT l).map PyDateTime.key).getD 0

/-- A stored file is in non-decreasing timestamp order: every line's
timestamp parses and the keys are non-decreasing. -/
def fileSortedB (ls : List String) : Bool :=
  ls.all (fun l => (lineDT l).isSome) && keysSorted (ls.map lineKeyD)

/-- Every date partition of the batch is in non-decreasing parsed
timestamp order (the condition under which the dedup of `store_lines` is
idempotent across polls). -/
def batchSortedB (b : List (String × String)) : Bool :=
  (buildMap b).all (fun de => keysSorted (de.2.map entryKey))

/-- A batch whose two lines arrive in decreasing timestamp order (used to
exhibit the in-batch ordering gap of `store_lines`). -/
def ceBatch : List (String × String) :=
  [("2024-01-01T10:00:01.000000", "a"), ("2024-01-01T10:00:00.000000", "b")]

/-- A fetch oracle for the driver: run `r1` delivers a batch whose second
timestamp does not parse (the store raises after a partial append), run
`r2` delivers one older line. -/
def fetchCE : String → Option (List (String × String)) := fun id =>
  if id = "r1" then
    some [("2024-01-01T10:00:01.000000", "a"), ("2024-01-01Tbad", "b")]
  else if id = "r2" then some [("2024-01-01T10:00:00.000000", "c")]
  else none

/-! ## Structure of `splitCharP` -/

theorem splitCharP_ne_nil (p : Char → Bool) (l : List Char) : splitCharP p l ≠ [] := by
  cases l with
  | nil => simp [splitCharP]
  | cons x xs =>
    rcases h : splitCharP p xs with _ | ⟨q, qs⟩
    · simp [splitCharP, h]
    · simp only [splitCharP, h]
      split <;> simp

theorem splitCharP_cons_struct (p : Char → Bool) (l : List Char) (r : List Char)
    (rs : List (List Char)) (h : splitCharP p l = r :: rs) :
    (∀ x ∈ r, p x = false) ∧
      ((rs = [] ∧ l = r) ∨
        ∃ c l2, p c = true ∧ l = r ++ c :: l2 ∧ splitCharP p l2 = rs) := by
  induction l generalizing r rs with
  | nil =>
    simp only [splitCharP] at h
    obtain ⟨h1, h2⟩ := List.cons.inj h
    subst h1; subst h2
    exact ⟨by simp, Or.inl ⟨rfl, rfl⟩⟩
  | cons x xs ih =>
    rcases hx : splitCharP p xs with _ | ⟨q, qs⟩
    · exact absurd hx (splitCharP_ne_nil p xs)
    · simp only [splitCharP, hx] at h
      by_cases hpx : p x = true
      · rw [if_pos hpx] at h
        obtain ⟨h1, h2⟩ := List.cons.inj h
        subst h1
        refine ⟨by simp, Or.inr ⟨x, xs, hpx, by simp, ?_⟩⟩
        rw [hx, h2]
      · rw [if_neg hpx] at h
        obtain ⟨h1, h2⟩ := List.cons.inj h
        subst h1; subst h2
        obtain ⟨hqfree, hrest⟩ := ih q qs hx
        constructor
        · intro y hy
          rcases List.mem_cons.mp hy with hy | hy
          · subst hy; exact Bool.eq_false_iff.mpr hpx
          · exact hqfree y hy
        · rcases hrest with ⟨hrs, hxs⟩ | ⟨c, l2, hc, hxs, hsp⟩
          · exact Or.inl ⟨hrs, by rw [hxs]⟩
          · exact Or.inr ⟨c, l2, hc, by rw [hxs]; rfl, hsp⟩

theorem splitCharP_one (p : Char → Bool) (l a : List Char)
    (h : splitCharP p l = [a]) : l = a ∧ ∀ x ∈ a, p x = false := by
  obtain ⟨hfree, hrest⟩ := splitCharP_cons_struct p l a [] h
  rcases hrest with ⟨_, hl⟩ | ⟨c, l2, _, _, hsp⟩
  · exact ⟨hl, hfree⟩
  · exact absurd hsp (splitCharP_ne_nil p l2)

theorem splitCharP_two (p : Char → Bool) (l a b : List Char)
    (h : splitCharP p l = [a, b]) :
    ∃ c, p c = true ∧ l = a ++ c :: b ∧
      (∀ x ∈ a, p x = false) ∧ ∀ x ∈ b, p x = false := by
  obtain ⟨hfree, hrest⟩ := splitCharP_cons_struct p l a [b] h
  rcases hrest with ⟨hbad, _⟩ | ⟨c, l2, hc, hl, hsp⟩
  · exact absurd hbad (by simp)
  · obtain ⟨hl2, hbfree⟩ := splitCharP_one p l2 b hsp
    exact ⟨c, hc, by rw [hl, hl2], hfree, hbfree⟩

theorem splitCharP_three (p : Char → Bool) (l a b c3 : List Char)
    (h : splitCharP p l = [a, b, c3]) :
    ∃ c c', p c = true ∧ p c' = true ∧ l = a ++ c :: (b ++ c' :: c3) ∧
      (∀ x ∈ a, p x = false) ∧ (∀ x ∈ b, p x = false) ∧ ∀ x ∈ c3, p x = false := by
  obtain ⟨hfree, hrest⟩ := splitCharP_cons_struct p l a [b, c3] h
  rcases hrest with ⟨hbad, _⟩ | ⟨c, l2, hc, hl, hsp⟩
  · exact absurd hbad (by simp)
  · obtain ⟨c', hc', hl2, hbfree, hcfree⟩ := splitCharP_two p l2 b c3 hsp
    exact ⟨c, c', hc, hc', by rw [hl, hl2], hfree, hbfree, hcfree⟩

theorem splitCharP_append_sep (p : Char → Bool) (l1 : List Char) (c : Char)
    (l2 : List Char) (h1 : ∀ x ∈ l1, p x = false) (hc : p c = true) :
    splitCharP p (l1 ++ c :: l2) = l1 :: splitCharP p l2 := by
  induction l1 with
  | nil =>
    rcases h : splitCharP p l2 with _ | ⟨q, qs⟩
    · exact absurd h (splitCharP_ne_nil p l2)
    · simp [splitCharP, h, hc]
  | cons a l1 ih =>
    have hpa : p a = false := h1 a (by simp)
    have ih' := ih (fun x hx => h1 x (by simp [hx]))
    rw [List.cons_append, splitCharP, ih']
    simp [hpa]

/-! ## Character classes -/

theorem isDig_not_space (c : Char) (h : isDig c = true) : isPySpace c = false := by
  simp only [isDig, Bool.and_eq_true, decide_eq_true_eq] at h
  simp only [isPySpace, Bool.or_eq_false_iff, Bool.and_eq_false_iff,
    decide_eq_false_iff_not, not_le]
  omega

theorem isDig_ne_pipe (c : Char) (h : isDig c = true) : c ≠ '|' := by
  intro he
  subst he
  simp [isDig] at h

theorem isDig_ne_space_char (c : Char) (h : isDig c = true) : c ≠ ' ' := by
  intro he
  subst he
  simp [isDig] at h

theorem isPySpace_space : isPySpace ' ' = true := by decide

/-! ## Field facts of `strptime` -/

theorem field2_chars (l : List Char) (lo hi v : Nat) (h : field2 l lo hi = some v) :
    l ≠ [] ∧ ∀ c ∈ l, isDig c = true := by
  unfold field2 at h
  split at h
  · rename_i hcond
    simp only [Bool.and_eq_true, Bool.or_eq_true, decide_eq_true_eq] at hcond
    obtain ⟨hlen, hall⟩ := hcond
    refine ⟨?_, List.all_eq_true.mp hall⟩
    intro hnil
    subst hnil
    simp at hlen
  · exact absurd h (by simp)

theorem yearField_chars (l : List Char) (v : Nat) (h : yearField l = some v) :
    l ≠ [] ∧ ∀ c ∈ l, isDig c = true := by
  unfold yearField at h
  split at h
  · rename_i hcond
    simp only [Bool.and_eq_true, decide_eq_true_eq] at hcond
    obtain ⟨hlen, hall⟩ := hcond
    refine ⟨?_, List.all_eq_true.mp hall⟩
    intro hnil
    subst hnil
    simp at hlen
  · exact absurd h (by simp)

theorem dayField_chars (l : List Char) (v : Nat) (h : dayField l = some v) :
    l ≠ [] ∧ ∀ c ∈ l, isDig c = true ∨ c = ' ' := by
  unfold dayField at h
  split at h
  · rename_i sp c
    refine ⟨by simp, ?_⟩
    intro x hx
    split at h
    · rename_i hcond
      simp only [Bool.and_eq_true, decide_eq_true_eq] at hcond
      rcases List.mem_cons.mp hx with hx | hx
      · exact Or.inr hx
      · simp only [List.mem_singleton] at hx
        subst hx
        exact Or.inl hcond.1
    · exact absurd h (by simp)
  · obtain ⟨hne, hdig⟩ := field2_chars l 1 31 v h
    exact ⟨hne, fun c hc => Or.inl (hdig c hc)⟩

theorem fracField_chars (l : List Char) (v : Nat) (h : fracField l = some v) :
    l ≠ [] ∧ ∀ c ∈ l, isDig c = true := by
  unfold fracField at h
  split at h
  · rename_i hcond
    simp only [Bool.and_eq_true, decide_eq_true_eq] at hcond
    obtain ⟨⟨hlen, _⟩, hall⟩ := hcond
    refine ⟨?_, List.all_eq_true.mp hall⟩
    intro hnil
    subst hnil
    simp at hlen
  · exact absurd h (by simp)

/-! ## Shape of successfully parsed timestamps -/

theorem getLast?_mem_of_eq {α : Type} : ∀ (l : List α) (a : α), l.getLast? = some a → a ∈ l
  | [], a, h => by simp at h
  | [x], a, h => by
    simp only [List.getLast?_singleton, Option.some.injEq] at h
    simp [h]
  | x :: y :: t, a, h => by
    rw [List.getLast?_cons_cons] at h
    exact List.mem_cons_of_mem x (getLast?_mem_of_eq (y :: t) a h)

/-- A string accepted by `strptime` starts and ends with a digit and
contains no `|` (its characters are digits, the field separators, or the
space of a space-padded day). -/
theorem strptime_shape (s : String) (dt : PyDateTime) (h : strptime s = some dt) :
    '|' ∉ s.data ∧ (∃ c cs, s.data = c :: cs ∧ isDig c = true) ∧
      ∃ c, s.data.getLast? = some c ∧ isDig c = true := by
  unfold strptime at h
  split at h <;> try contradiction
  rename_i dpart tpart h1
  split at h <;> try contradiction
  rename_i ys ms ds h2
  split at h <;> try contradiction
  rename_i hs mis rest h3
  split at h <;> try contradiction
  rename_i ss frs h4
  split at h <;> try contradiction
  rename_i y mo da hh mi se mic hy hmo hda hhh hmi hse hmic
  obtain ⟨cT, hcT, hsd, hdfree, htfree⟩ := splitCharP_two _ _ _ _ h1
  obtain ⟨c1, c2, hc1, hc2, hdp, hysfree, hmsfree, hdsfree⟩ := splitCharP_three _ _ _ _ _ h2
  obtain ⟨c3, c4, hc3, hc4, htp, hhsfree, hmisfree, hrestfree⟩ := splitCharP_three _ _ _ _ _ h3
  obtain ⟨c5, hc5, hrest, hssfree, hfrsfree⟩ := splitCharP_two _ _ _ _ h4
  have hc1' : c1 = '-' := of_decide_eq_true hc1
  have hc2' : c2 = '-' := of_decide_eq_true hc2
  have hc3' : c3 = ':' := of_decide_eq_true hc3
  have hc4' : c4 = ':' := of_decide_eq_true hc4
  have hc5' : c5 = '.' := of_decide_eq_true hc5
  have hcT' : cT = 'T' ∨ cT = 't' := by
    rcases Bool.or_eq_true_iff.mp hcT with hx | hx
    · exact Or.inl (of_decide_eq_true hx)
    · exact Or.inr (of_decide_eq_true hx)
  obtain ⟨hysne, hysdig⟩ := yearField_chars ys y hy
  obtain ⟨hmsne, hmsdig⟩ := field2_chars ms 1 12 mo hmo
  obtain ⟨hdsne, hdschar⟩ := dayField_chars ds da hda
  obtain ⟨hhsne, hhsdig⟩ := field2_chars hs 0 23 hh hhh
  obtain ⟨hmisne, hmisdig⟩ := field2_chars mis 0 59 mi hmi
  obtain ⟨hssne, hssdig⟩ := field2_chars ss 0 59 se hse
  obtain ⟨hfrsne, hfrsdig⟩ := fracField_chars frs mic hmic
  have hnotdig : ∀ (f : List Char), (∀ c ∈ f, isDig c = true) → '|' ∉ f :=
    fun f hf hm => absurd (hf '|' hm) (by decide)
  refine ⟨?_, ?_, ?_⟩
  · rw [hsd, hdp, htp, hrest]
    intro hmem
    simp only [List.mem_append, List.mem_cons] at hmem
    rcases hmem with (hm | hm | hm | hm | hm) | hm | hm | hm | hm | hm | hm | hm | hm
    · exact hnotdig ys hysdig hm
    · rw [hc1'] at hm; exact absurd hm (by decide)
    · exact hnotdig ms hmsdig hm
    · rw [hc2'] at hm; exact absurd hm (by decide)
    · rcases hdschar '|' hm with hd | hd
      · exact absurd hd (by decide)
      · exact absurd hd (by decide)
    · rcases hcT' with hT | hT <;> (rw [hT] at hm; exact absurd hm (by decide))
    · exact hnotdig hs hhsdig hm
    · rw [hc3'] at hm; exact absurd hm (by decide)
    · exact hnotdig mis hmisdig hm
    · rw [hc4'] at hm; exact absurd hm (by decide)
    · exact hnotdig ss hssdig hm
    · rw [hc5'] at hm; exact absurd hm (by decide)
    · exact hnotdig frs hfrsdig hm
  · obtain ⟨y0, ytl, hys0⟩ := List.exists_cons_of_ne_nil hysne
    refine ⟨y0, ytl ++ c1 :: (ms ++ c2 :: ds) ++ cT :: tpart, ?_, ?_⟩
    · rw [hsd, hdp, hys0]
      simp [List.append_assoc]
    · exact hysdig y0 (by rw [hys0]; simp)
  · have hlast : s.data.getLast? = frs.getLast? := by
      rw [hsd, hdp, htp, hrest]
      rw [List.getLast?_append_of_ne_nil _ (by simp)]
      rw [show cT :: (hs ++ c3 :: (mis ++ c4 :: (ss ++ c5 :: frs))) =
            [cT] ++ (hs ++ c3 :: (mis ++ c4 :: (ss ++ c5 :: frs))) from rfl]
      rw [List.getLast?_append_of_ne_nil _ (by simp)]
      rw [List.getLast?_append_of_ne_nil _ (by simp)]
      rw [show c3 :: (mis ++ c4 :: (ss ++ c5 :: frs)) =
            [c3] ++ (mis ++ c4 :: (ss ++ c5 :: frs)) from rfl]
      rw [List.getLast?_append_of_ne_nil _ (by simp)]
      rw [List.getLast?_append_of_ne_nil _ (by simp)]
      rw [show c4 :: (ss ++ c5 :: frs) = [c4] ++ (ss ++ c5 :: frs) from rfl]
      rw [List.getLast?_append_of_ne_nil _ (by simp)]
      rw [List.getLast?_append_of_ne_nil _ (by simp)]
      rw [show c5 :: frs = [c5] ++ frs from rfl]
      rw [List.getLast?_append_of_ne_nil _ hfrsne]
    obtain ⟨fl, hfl⟩ := Option.isSome_iff_exists.mp (List.getLast?_isSome.mpr hfrsne)
    exact ⟨fl, by rw [hlast, hfl], hfrsdig fl (getLast?_mem_of_eq frs fl hfl)⟩

/-! ## Round trip: a written line parses back to its timestamp -/

theorem string_mk_data (s : String) : String.mk s.data = s := by
  cases s
  rfl

theorem stripList_append_space (l : List Char) (c0 : Char) (cs : List Char)
    (hhd : l = c0 :: cs) (h0 : isPySpace c0 = false) (cl : Char)
    (hcl : l.getLast? = some cl) (hl : isPySpace cl = false) :
    stripList (l ++ [' ']) = l := by
  unfold stripList
  have h1 : List.dropWhile isPySpace (l ++ [' ']) = l ++ [' '] := by
    rw [hhd, List.cons_append, List.dropWhile_cons, h0]
    simp
  rw [h1, List.reverse_append]
  have h2 : [' '].reverse ++ l.reverse = ' ' :: l.reverse := by simp
  rw [h2, List.dropWhile_cons, isPySpace_space]
  simp only [if_true]
  have h3 : List.dropWhile isPySpace l.reverse = l.reverse := by
    have hh : l.reverse.head? = some cl := by rw [List.head?_reverse, hcl]
    rcases hr : l.reverse with _ | ⟨r0, rt⟩
    · simp
    · rw [hr] at hh
      simp only [List.head?_cons, Option.some.injEq] at hh
      subst hh
      rw [List.dropWhile_cons, hl]
      simp
  rw [h3, List.reverse_reverse]

/-- Round trip: the line written for timestamp `ts` and (any) content `c`
parses back, through `get_datetime_from_log`, to exactly the datetime of
`ts`. -/
theorem lineDT_fmt (ts c : String) (dt : PyDateTime) (h : strptime ts = some dt) :
    lineDT (fmtEntry (ts, c)) = some dt := by
  obtain ⟨hpipe, ⟨c0, cs, hhd, hdig0⟩, ⟨cl, hcl, hdigl⟩⟩ := strptime_shape ts dt h
  have hdata : (fmtEntry (ts, c)).data = (ts.data ++ [' ']) ++ '|' :: (' ' :: c.data) := by
    show (ts ++ " | " ++ c).data = _
    rw [String.data_append, String.data_append]
    rw [show (" | " : String).data = [' ', '|', ' '] from rfl]
    simp
  have hfree : ∀ x ∈ ts.data ++ [' '], decide (x = '|') = false := by
    intro x hx
    rcases List.mem_append.mp hx with hx | hx
    · exact decide_eq_false (fun he => hpipe (he ▸ hx))
    · simp only [List.mem_singleton] at hx
      subst hx
      decide
  unfold lineDT pySplit
  rw [hdata, splitCharP_append_sep _ _ _ _ hfree (by decide)]
  simp only [List.map_cons, List.headD_cons]
  unfold pyStrip
  rw [show (String.mk (ts.data ++ [' '])).data = ts.data ++ [' '] from rfl]
  rw [stripList_append_space ts.data c0 cs hhd (isDig_not_space c0 hdig0) cl hcl
      (isDig_not_space cl hdigl)]
  rw [string_mk_data]
  exact h

/-! ## The write loop as a filter -/

theorem writeLoop_eq (hwm : Option PyDateTime) (es : List (String × String))
    (hp : ∀ e ∈ es, (strptime e.1).isSome = true) :
    writeLoop hwm es = ((es.filter (fun e => keepB hwm e.1)).map fmtEntry, true) := by
  induction es with
  | nil => simp [writeLoop]
  | cons e rest ih =>
    obtain ⟨ts, c⟩ := e
    obtain ⟨dt, hdt⟩ := Option.isSome_iff_exists.mp (hp (ts, c) (by simp))
    have ih' := ih (fun x hx => hp x (by simp [hx]))
    cases hwm with
    | none =>
      have hkb : keepB none ts = true := by
        unfold keepB
        rw [hdt]
      simp only [writeLoop, hdt, ih', List.filter_cons, hkb]
      simp
    | some hw =>
      have hkb : keepB (some hw) ts = decide (hw.key < dt.key) := by
        unfold keepB
        rw [hdt]
      simp only [writeLoop, hdt, ih', List.filter_cons, hkb]
      cases hk : decide (hw.key < dt.key) <;> simp [hk]

theorem writeLoop_ok_parse (hwm : Option PyDateTime) (es : List (String × String))
    (h : (writeLoop hwm es).2 = true) : ∀ e ∈ es, (strptime e.1).isSome = true := by
  induction es with
  | nil => simp
  | cons e rest ih =>
    obtain ⟨ts, c⟩ := e
    rcases hdt : strptime ts with _ | dt
    · rw [writeLoop, hdt] at h
      simp at h
    · have hrest : (writeLoop hwm rest).2 = true := by
        rw [writeLoop, hdt] at h
        dsimp only at h
        split at h
        · simpa using h
        · exact h
      intro x hx
      rcases List.mem_cons.mp hx with rfl | hx
      · simp [hdt]
      · exact ih hrest x hx

theorem keepB_of_parse (hwm : PyDateTime) (ts : String) (dt : PyDateTime)
    (hdt : strptime ts = some dt) :
    keepB (some hwm) ts = decide (hwm.key < dt.key) := by
  unfold keepB
  rw [hdt]

theorem entryKey_of_parse (e : String × String) (dt : PyDateTime)
    (hdt : strptime e.1 = some dt) : entryKey e = dt.key := by
  unfold entryKey
  rw [hdt]
  rfl

/-! ## Sorted key lists -/

theorem keysSorted_eq_chain (l : List Nat) :
    keysSorted l = true ↔ List.Chain' (· ≤ ·) l := by
  induction l with
  | nil => simp [keysSorted]
  | cons a t ih =>
    cases t with
    | nil => simp [keysSorted]
    | cons b r =>
      rw [keysSorted, List.chain'_cons, Bool.and_eq_true, decide_eq_true_eq]
      exact and_congr Iff.rfl ih

theorem keysSorted_iff_pairwise (l : List Nat) :
    keysSorted l = true ↔ List.Pairwise (· ≤ ·) l := by
  rw [keysSorted_eq_chain, List.chain'_iff_pairwise]

theorem keysSorted_sublist (l1 l2 : List Nat) (hs : l1.Sublist l2)
    (h : keysSorted l2 = true) : keysSorted l1 = true :=
  (keysSorted_iff_pairwise l1).mpr
    (List.Pairwise.sublist hs ((keysSorted_iff_pairwise l2).mp h))

theorem keysSorted_append (a b : List Nat) (ha : keysSorted a = true)
    (hb : keysSorted b = true) (hab : ∀ x ∈ a, ∀ y ∈ b, x ≤ y) :
    keysSorted (a ++ b) = true :=
  (keysSorted_iff_pairwise _).mpr
    (List.pairwise_append.mpr ⟨(keysSorted_iff_pairwise a).mp ha,
      (keysSorted_iff_pairwise b).mp hb, hab⟩)

theorem keysSorted_le_last (l : List Nat) (h : keysSorted l = true) (m : Nat)
    (hm : l.getLast? = some m) : ∀ x ∈ l, x ≤ m := by
  induction l with
  | nil => simp
  | cons a t ih =>
    cases t with
    | nil =>
      rw [List.getLast?_singleton] at hm
      intro x hx
      simp only [List.mem_singleton] at hx
      simp [hx, Option.some.inj hm]
    | cons b r =>
      have h' : a ≤ b ∧ keysSorted (b :: r) = true := by
        rw [keysSorted, Bool.and_eq_true, decide_eq_true_eq] at h
        exact h
      rw [List.getLast?_cons_cons] at hm
      have ihb := ih h'.2 hm
      intro x hx
      rcases List.mem_cons.mp hx with rfl | hx
      · exact le_trans h'.1 (ihb b (by simp))
      · exact ihb x hx

/-- Sorted keys make the kept set a suffix: once one entry passes the
high-water test, every later entry does too, so the filter keeps the tail
and in particular the last surviving entry is the partition's last. -/
theorem filter_getLast_of_sorted (hwm : PyDateTime) (es : List (String × String))
    (hp : ∀ e ∈ es, (strptime e.1).isSome = true)
    (hsorted : keysSorted (es.map entryKey) = true)
    (hne : es.filter (fun e => keepB (some hwm) e.1) ≠ []) :
    (es.filter (fun e => keepB (some hwm) e.1)).getLast? = es.getLast? := by
  induction es with
  | nil => simp at hne
  | cons e rest ih =>
    obtain ⟨dt, hdt⟩ := Option.isSome_iff_exists.mp (hp e (by simp))
    rcases hk : keepB (some hwm) e.1 with _ | _
    · rw [List.filter_cons, hk] at hne ⊢
      simp only [Bool.false_eq_true, if_false] at hne ⊢
      cases rest with
      | nil => simp at hne
      | cons b r =>
        rw [List.getLast?_cons_cons]
        refine ih (fun x hx => hp x (by simp [hx])) ?_ hne
        exact keysSorted_sublist _ _ (by simp) hsorted
    · rw [List.filter_cons, hk]
      simp only [if_true]
      have hall : rest.filter (fun x => keepB (some hwm) x.1) = rest := by
        rw [List.filter_eq_self]
        intro x hx
        obtain ⟨dx, hdx⟩ := Option.isSome_iff_exists.mp (hp x (by simp [hx]))
        rw [keepB_of_parse _ _ _ hdx, decide_eq_true_eq]
        have hke : hwm.key < dt.key := by
          rw [keepB_of_parse _ _ _ hdt, decide_eq_true_eq] at hk
          exact hk
        have hpair : entryKey e ≤ entryKey x := by
          have hpw := (keysSorted_iff_pairwise _).mp hsorted
          rw [List.map_cons, List.pairwise_cons] at hpw
          exact hpw.1 (entryKey x) (List.mem_map_of_mem entryKey hx)
        rw [entryKey_of_parse e dt hdt, entryKey_of_parse x dx hdx] at hpair
        omega
      rw [hall]

/-! ## The date partition map -/

/-- Lookup in the association-list model of the Python dict. -/
def assocFind (m : List (String × List (String × String))) (k : String) :
    Option (List (String × String)) :=
  match m with
  | [] => none
  | (k0, vs) :: rest => if k0 = k then some vs else assocFind rest k

/-- The lines of a batch belonging to one date, marker-stripped — the
reference value of the dict entry built by the partition loop. -/
def tfd (b : List (String × String)) (d : String) : List (String × String) :=
  (b.filter (fun e => decide (dateOf e.1 = d))).map
    (fun e => (e.1, transformContent e.2))

theorem assocFind_insertMap (m : List (String × List (String × String)))
    (k k' : String) (v : String × String) :
    assocFind (insertMap m k v) k' =
      if k' = k then some ((assocFind m k).getD [] ++ [v]) else assocFind m k' := by
  induction m with
  | nil =>
    by_cases h : k' = k
    · subst h
      simp [insertMap, assocFind]
    · have h2 : ¬(k = k') := fun he => h he.symm
      simp [insertMap, assocFind, h, h2]
  | cons p rest ih =>
    obtain ⟨k0, vs⟩ := p
    by_cases h0 : k0 = k
    · subst h0
      have h1 : insertMap ((k0, vs) :: rest) k0 v = (k0, vs ++ [v]) :: rest := by
        unfold insertMap
        rw [if_pos rfl]
      rw [h1]
      by_cases h2 : k' = k0
      · subst h2
        simp [assocFind]
      · have h3 : ¬(k0 = k') := fun he => h2 he.symm
        simp [assocFind, h2, h3]
    · have h1 : insertMap ((k0, vs) :: rest) k v = (k0, vs) :: insertMap rest k v := by
        rw [insertMap, if_neg h0]
      rw [h1]
      by_cases h2 : k0 = k'
      · subst h2
        simp [assocFind, ih, h0, fun he : k0 = k => h0 he]
      · simp [assocFind, ih, h2, h0]

theorem assocFind_nil (k : String) : assocFind [] k = none := rfl

theorem buildMap_foldl (b : List (String × String)) :
    ∀ (acc : List (String × List (String × String))) (d : String),
      (assocFind acc d = none →
        assocFind (b.foldl (fun m e => insertMap m (dateOf e.1) (e.1, transformContent e.2)) acc) d =
          (if tfd b d = [] then none else some (tfd b d))) ∧
      (∀ vs, assocFind acc d = some vs →
        assocFind (b.foldl (fun m e => insertMap m (dateOf e.1) (e.1, transformContent e.2)) acc) d =
          some (vs ++ tfd b d)) := by
  induction b with
  | nil =>
    intro acc d
    constructor
    · intro h
      simp [tfd, h]
    · intro vs h
      simp [tfd, h]
  | cons e rest ih =>
    intro acc d
    have htfd : tfd (e :: rest) d =
        (if decide (dateOf e.1 = d) = true then
          (e.1, transformContent e.2) :: tfd rest d else tfd rest d) := by
      unfold tfd
      rw [List.filter_cons]
      split <;> simp
    by_cases hd : dateOf e.1 = d
    · have hfind : assocFind (insertMap acc (dateOf e.1) (e.1, transformContent e.2)) d =
          some ((assocFind acc d).getD [] ++ [(e.1, transformContent e.2)]) := by
        rw [assocFind_insertMap]
        simp [hd]
      constructor
      · intro h
        have h2 := (ih (insertMap acc (dateOf e.1) (e.1, transformContent e.2)) d).2
          ((assocFind acc d).getD [] ++ [(e.1, transformContent e.2)]) hfind
        rw [List.foldl_cons]
        rw [h2, h, htfd]
        simp [hd]
      · intro vs h
        have h2 := (ih (insertMap acc (dateOf e.1) (e.1, transformContent e.2)) d).2
          ((assocFind acc d).getD [] ++ [(e.1, transformContent e.2)]) hfind
        rw [List.foldl_cons]
        rw [h2, h, htfd]
        simp [hd]
    · have hfind : assocFind (insertMap acc (dateOf e.1) (e.1, transformContent e.2)) d =
          assocFind acc d := by
        rw [assocFind_insertMap]
        rw [if_neg (fun he : d = dateOf e.1 => hd he.symm)]
      constructor
      · intro h
        rw [List.foldl_cons]
        rw [(ih _ d).1 (by rw [hfind, h]), htfd]
        simp [hd]
      · intro vs h
        rw [List.foldl_cons]
        rw [(ih _ d).2 vs (by rw [hfind, h]), htfd]
        simp [hd]

theorem buildMap_find (b : List (String × String)) (d : String) :
    assocFind (buildMap b) d = (if tfd b d = [] then none else some (tfd b d)) :=
  (buildMap_foldl b [] d).1 rfl

theorem insertMap_keys (m : List (String × List (String × String))) (k : String)
    (v : String × String) :
    (insertMap m k v).map Prod.fst =
      (if k ∈ m.map Prod.fst then m.map Prod.fst else m.map Prod.fst ++ [k]) := by
  induction m with
  | nil => simp [insertMap]
  | cons p rest ih =>
    obtain ⟨k0, vs⟩ := p
    by_cases h0 : k0 = k
    · subst h0
      simp [insertMap]
    · simp only [insertMap, if_neg h0, List.map_cons]
      rw [ih]
      by_cases hk : k ∈ rest.map Prod.fst
      · simp [hk, fun he : k0 = k => h0 he]
      · simp only [List.mem_cons, hk, or_false]
        rw [if_neg (fun he : k = k0 => h0 he.symm)]
        simp

theorem insertMap_nodup (m : List (String × List (String × String))) (k : String)
    (v : String × String) (h : (m.map Prod.fst).Nodup) :
    ((insertMap m k v).map Prod.fst).Nodup := by
  rw [insertMap_keys]
  by_cases hk : k ∈ m.map Prod.fst
  · simpa [hk] using h
  · rw [if_neg hk]
    simp [List.nodup_append, h, hk]

theorem buildMap_nodup (b : List (String × String)) :
    ((buildMap b).map Prod.fst).Nodup := by
  have hgen : ∀ (acc : List (String × List (String × String))),
      (acc.map Prod.fst).Nodup →
      ((b.foldl (fun m e => insertMap m (dateOf e.1) (e.1, transformContent e.2)) acc).map
        Prod.fst).Nodup := by
    induction b with
    | nil => intro acc h; exact h
    | cons e rest ih =>
      intro acc h
      rw [List.foldl_cons]
      exact ih _ (insertMap_nodup acc _ _ h)
  exact hgen [] (by simp)

theorem assocFind_of_mem (m : List (String × List (String × String)))
    (hnd : (m.map Prod.fst).Nodup) (k : String) (vs : List (String × String))
    (hm : (k, vs) ∈ m) : assocFind m k = some vs := by
  induction m with
  | nil => simp at hm
  | cons p rest ih =>
    obtain ⟨k0, vs0⟩ := p
    rcases List.mem_cons.mp hm with he | he
    · obtain ⟨h1, h2⟩ := Prod.mk.inj he.symm
      unfold assocFind
      rw [if_pos h1, h2]
    · unfold assocFind
      simp only [List.map_cons, List.nodup_cons] at hnd
      have hne : ¬(k0 = k) := by
        intro he0
        subst he0
        exact hnd.1 (List.mem_map.mpr ⟨(k0, vs), he, rfl⟩)
      rw [if_neg hne]
      exact ih hnd.2 he

theorem assocFind_mem (m : List (String × List (String × String))) (k : String)
    (vs : List (String × String)) (h : assocFind m k = some vs) : (k, vs) ∈ m := by
  induction m with
  | nil => simp [assocFind] at h
  | cons p rest ih =>
    obtain ⟨k0, vs0⟩ := p
    unfold assocFind at h
    split at h
    · rename_i he
      subst he
      simp [Option.some.inj h]
    · exact List.mem_cons_of_mem _ (ih h)

/-- A date partition of `buildMap` holds exactly the marker-stripped batch
lines of that date, in arrival order. -/
theorem buildMap_mem_eq (b : List (String × String)) (d : String)
    (es : List (String × String)) (h : (d, es) ∈ buildMap b) :
    es = tfd b d ∧ tfd b d ≠ [] := by
  have hf := assocFind_of_mem _ (buildMap_nodup b) d es h
  rw [buildMap_find] at hf
  split at hf
  · exact absurd hf (by simp)
  · rename_i hne
    exact ⟨(Option.some.inj hf).symm, hne⟩

theorem buildMap_mem_of_date (b : List (String × String)) (d : String)
    (h : ∃ e ∈ b, dateOf e.1 = d) : (d, tfd b d) ∈ buildMap b := by
  obtain ⟨e, he, hde⟩ := h
  have hne : tfd b d ≠ [] := by
    intro hnil
    have : (e.1, transformContent e.2) ∈ tfd b d := by
      unfold tfd
      exact List.mem_map_of_mem _ (List.mem_filter.mpr ⟨he, by simp [hde]⟩)
    rw [hnil] at this
    simp at this
  apply assocFind_mem
  rw [buildMap_find, if_neg hne]

/-! ## Paths and the per-date store step -/

theorem mkPath_inj (sp h d1 d2 : String) (he : mkPath sp h d1 = mkPath sp h d2) :
    d1 = d2 := by
  have hd : (mkPath sp h d1).data = (mkPath sp h d2).data := by rw [he]
  unfold mkPath at hd
  simp only [String.data_append, List.append_assoc] at hd
  have h1 := List.append_cancel_left hd
  have h2 := List.append_cancel_left h1
  have h3 := List.append_cancel_left h2
  have h4 := List.append_cancel_left h3
  have h5 := List.append_cancel_right h4
  calc d1 = String.mk d1.data := (string_mk_data d1).symm
    _ = String.mk d2.data := by rw [h5]
    _ = d2 := string_mk_data d2

theorem fsUpdate_at (g : FileSys) (p : String) (v : List String) :
    fsUpdate g p v p = some v := by simp [fsUpdate]

theorem fsUpdate_frame (g : FileSys) (p : String) (v : List String) (q : String)
    (h : q ≠ p) : fsUpdate g p v q = g q := by simp [fsUpdate, h]

theorem ensure_at (g : FileSys) (p : String) :
    ensure_file_exist g p p = some ((g p).getD []) := by
  unfold ensure_file_exist
  rcases hg : g p with _ | l
  · simp [fsUpdate]
  · simp [hg]

theorem ensure_frame (g : FileSys) (p q : String) (h : q ≠ p) :
    ensure_file_exist g p q = g q := by
  unfold ensure_file_exist
  rcases hg : g p with _ | l
  · simp [fsUpdate, h]
  · rfl

theorem storeDate_err (sp hk : String) (g : FileSys) (d : String)
    (es : List (String × String))
    (herr : lastLineDT ((g (mkPath sp hk d)).getD []) = Except.error ()) :
    storeDate sp hk g d es = (ensure_file_exist g (mkPath sp hk d), false) := by
  unfold storeDate
  simp only [ensure_at, Option.getD_some, herr]

theorem storeDate_ok (sp hk : String) (g : FileSys) (d : String)
    (es : List (String × String)) (hwm : Option PyDateTime)
    (hok : lastLineDT ((g (mkPath sp hk d)).getD []) = Except.ok hwm) :
    storeDate sp hk g d es =
      (fsUpdate (ensure_file_exist g (mkPath sp hk d)) (mkPath sp hk d)
        ((g (mkPath sp hk d)).getD [] ++ (writeLoop hwm es).1),
       (writeLoop hwm es).2) := by
  unfold storeDate
  simp only [ensure_at, Option.getD_some, hok]

theorem storeDate_frame (sp hk : String) (g : FileSys) (d : String)
    (es : List (String × String)) (q : String) (h : q ≠ mkPath sp hk d) :
    (storeDate sp hk g d es).1 q = g q := by
  rcases hl : lastLineDT ((g (mkPath sp hk d)).getD []) with e | hwm
  · cases e
    rw [storeDate_err sp hk g d es hl]
    exact ensure_frame g _ q h
  · rw [storeDate_ok sp hk g d es hwm hl]
    show fsUpdate (ensure_file_exist g (mkPath sp hk d)) (mkPath sp hk d) _ q = g q
    rw [fsUpdate_frame _ _ _ _ h]
    exact ensure_frame g _ q h

theorem storeLinesGo_frame (sp hk : String) :
    ∀ (map : List (String × List (String × String))) (g : FileSys) (q : String),
      (∀ d ∈ map.map Prod.fst, q ≠ mkPath sp hk d) →
      (storeLinesGo sp hk map g).1 q = g q := by
  intro map
  induction map with
  | nil => intro g q h; rfl
  | cons de rest ih =>
    intro g q h
    obtain ⟨d, es⟩ := de
    rw [storeLinesGo]
    have hq : q ≠ mkPath sp hk d := h d (by simp)
    split
    · rw [ih _ q (fun d' hd' => h d' (by simp [hd']))]
      exact storeDate_frame sp hk g d es q hq
    · exact storeDate_frame sp hk g d es q hq

/-- The success behaviour of the per-date loop of `store_lines`: files at
other paths are untouched, and the file of each processed date gains
exactly the surviving lines of its partition, appended at the end. -/
theorem storeLinesGo_spec (sp hk : String) :
    ∀ (map : List (String × List (String × String))) (g g' : FileSys),
      (((map.map Prod.fst).map (mkPath sp hk)).Nodup) →
      storeLinesGo sp hk map g = (g', true) →
      (∀ q, (∀ d ∈ map.map Prod.fst, q ≠ mkPath sp hk d) → g' q = g q) ∧
      ∀ de ∈ map, ∃ hwm,
        lastLineDT ((g (mkPath sp hk de.1)).getD []) = Except.ok hwm ∧
        (writeLoop hwm de.2).2 = true ∧
        g' (mkPath sp hk de.1) =
          some ((g (mkPath sp hk de.1)).getD [] ++ (writeLoop hwm de.2).1) := by
  intro map
  induction map with
  | nil =>
    intro g g' hnd hgo
    rw [storeLinesGo] at hgo
    obtain ⟨h1, _⟩ := Prod.mk.inj hgo
    subst h1
    exact ⟨fun q _ => rfl, by simp⟩
  | cons de rest ih =>
    intro g g' hnd hgo
    obtain ⟨d, es⟩ := de
    rcases hl : lastLineDT ((g (mkPath sp hk d)).getD []) with e | hwm
    · cases e
      rw [storeLinesGo, storeDate_err sp hk g d es hl] at hgo
      simp at hgo
    · rw [storeLinesGo, storeDate_ok sp hk g d es hwm hl] at hgo
      simp only [List.map_cons, List.nodup_cons] at hnd
      rcases hw2 : (writeLoop hwm es).2 with _ | _
      · rw [hw2] at hgo
        simp at hgo
      · rw [hw2] at hgo
        simp only [if_true] at hgo
        set g1 : FileSys := fsUpdate (ensure_file_exist g (mkPath sp hk d)) (mkPath sp hk d)
          ((g (mkPath sp hk d)).getD [] ++ (writeLoop hwm es).1) with hg1
        have hg1at : g1 (mkPath sp hk d) =
            some ((g (mkPath sp hk d)).getD [] ++ (writeLoop hwm es).1) := fsUpdate_at _ _ _
        have hg1fr : ∀ q, q ≠ mkPath sp hk d → g1 q = g q := by
          intro q hq
          rw [hg1]
          rw [fsUpdate_frame _ _ _ _ hq]
          exact ensure_frame g _ q hq
        obtain ⟨ihframe, ihspec⟩ := ih g1 g' hnd.2 hgo
        have hdnot : ∀ d' ∈ rest.map Prod.fst, mkPath sp hk d ≠ mkPath sp hk d' := by
          intro d' hd' he
          exact hnd.1 (he ▸ List.mem_map_of_mem (mkPath sp hk) hd')
        constructor
        · intro q hq
          rw [ihframe q (fun d' hd' => hq d' (by simp [hd']))]
          exact hg1fr q (hq d (by simp))
        · intro de2 hde2
          rcases List.mem_cons.mp hde2 with he | he
          · subst he
            refine ⟨hwm, hl, hw2, ?_⟩
            rw [ihframe (mkPath sp hk d) hdnot]
            exact hg1at
          · obtain ⟨hwm2, hlast2, hw22, hat2⟩ := ihspec de2 he
            have hne : mkPath sp hk de2.1 ≠ mkPath sp hk d := by
              intro he2
              exact hdnot de2.1 (List.mem_map_of_mem Prod.fst he) he2.symm
            rw [hg1fr _ hne] at hlast2 hat2
            exact ⟨hwm2, hlast2, hw22, hat2⟩

theorem store_lines_iff (sp hk : String) (b : List (String × String))
    (g g' : FileSys) :
    store_lines sp hk b g = some g' ↔ storeLinesGo sp hk (buildMap b) g = (g', true) := by
  unfold store_lines storeLinesEx
  rcases hgo : storeLinesGo sp hk (buildMap b) g with ⟨g1, ok⟩
  cases ok
  · simp [hgo]
  · simp [hgo, eq_comm]

theorem pathsNodup (sp hk : String) (b : List (String × String)) :
    (((buildMap b).map Prod.fst).map (mkPath sp hk)).Nodup :=
  List.Nodup.map (fun d1 d2 he => mkPath_inj sp hk d1 d2 he) (buildMap_nodup b)

/-- `store_lines` on a normal return: frame on untouched paths and the
exact new contents of each date's file. -/
theorem store_lines_file_spec (sp hk : String) (b : List (String × String))
    (g g' : FileSys) (hs : store_lines sp hk b g = some g') :
    (∀ q, (∀ d ∈ (buildMap b).map Prod.fst, q ≠ mkPath sp hk d) → g' q = g q) ∧
    ∀ de ∈ buildMap b, ∃ hwm,
      lastLineDT ((g (mkPath sp hk de.1)).getD []) = Except.ok hwm ∧
      (writeLoop hwm de.2).2 = true ∧
      g' (mkPath sp hk de.1) =
        some ((g (mkPath sp hk de.1)).getD [] ++ (writeLoop hwm de.2).1) :=
  storeLinesGo_spec sp hk (buildMap b) g g' (pathsNodup sp hk b)
    ((store_lines_iff sp hk b g g').mp hs)

/-! ## Append-only behaviour (also through exceptions) -/

theorem storeDate_append_only (sp hk : String) (g : FileSys) (d : String)
    (es : List (String × String)) (q : String) :
    (storeDate sp hk g d es).1 q = g q ∨
      ∃ t, (storeDate sp hk g d es).1 q = some ((g q).getD [] ++ t) := by
  by_cases hq : q = mkPath sp hk d
  · rcases hl : lastLineDT ((g (mkPath sp hk d)).getD []) with e | hwm
    · cases e
      right
      refine ⟨[], ?_⟩
      rw [storeDate_err _ _ _ _ _ hl, hq, List.append_nil]
      exact ensure_at g _
    · right
      refine ⟨(writeLoop hwm es).1, ?_⟩
      rw [storeDate_ok _ _ _ _ _ hwm hl, hq]
      exact fsUpdate_at _ _ _
  · left
    exact storeDate_frame sp hk g d es q hq

theorem storeLinesGo_append_only (sp hk : String) :
    ∀ (map : List (String × List (String × String))) (g : FileSys) (q : String),
      (storeLinesGo sp hk map g).1 q = g q ∨
        ∃ t, (storeLinesGo sp hk map g).1 q = some ((g q).getD [] ++ t) := by
  intro map
  induction map with
  | nil => intro g q; left; rfl
  | cons de rest ih =>
    intro g q
    obtain ⟨d, es⟩ := de
    rw [storeLinesGo]
    split
    · rcases ih (storeDate sp hk g d es).1 q with h1 | ⟨t1, h1⟩
      · rw [h1]
        exact storeDate_append_only sp hk g d es q
      · rcases storeDate_append_only sp hk g d es q with h2 | ⟨t2, h2⟩
        · right
          refine ⟨t1, ?_⟩
          rw [h1, h2]
        · right
          refine ⟨t2 ++ t1, ?_⟩
          rw [h1, h2]
          simp
    · exact storeDate_append_only sp hk g d es q

theorem storeLinesEx_append_only (sp hk : String) (b : List (String × String))
    (g : FileSys) (q : String) :
    (storeLinesEx sp hk b g).1 q = g q ∨
      ∃ t, (storeLinesEx sp hk b g).1 q = some ((g q).getD [] ++ t) :=
  storeLinesGo_append_only sp hk (buildMap b) g q

/-! ## The polling driver -/

theorem execute_length (fetch : String → Option (List (String × String)))
    (sp : String) (runs : List Run) (g : FileSys) :
    (execute fetch sp runs g).2.length = runs.length := by
  induction runs generalizing g with
  | nil => rfl
  | cons r rest ih =>
    rw [execute]
    simp [ih]

theorem execute_append (fetch : String → Option (List (String × String)))
    (sp : String) (pre : List Run) :
    ∀ (post : List Run) (g : FileSys),
      execute fetch sp (pre ++ post) g =
        ((execute fetch sp post (execute fetch sp pre g).1).1,
          (execute fetch sp pre g).2 ++
            (execute fetch sp post (execute fetch sp pre g).1).2) := by
  induction pre with
  | nil =>
    intro post g
    rw [show execute fetch sp [] g = (g, []) from rfl]
    simp
  | cons r rest ih =>
    intro post g
    rw [List.cons_append, execute, execute, ih]
    simp

theorem processRun_fail (fetch : String → Option (List (String × String)))
    (sp : String) (g : FileSys) (r : Run) (hf : fetch r.id = none) :
    processRun fetch sp g r = (g, false) := by
  unfold processRun
  rw [hf]

/-! ## Second-run idempotence for sorted partitions -/

theorem getLast?_map {α β : Type} (f : α → β) :
    ∀ (l : List α), (l.map f).getLast? = l.getLast?.map f
  | [] => rfl
  | [_] => rfl
  | a :: b :: t => by
    rw [List.map_cons, List.map_cons, List.getLast?_cons_cons, List.getLast?_cons_cons,
      ← List.map_cons]
    exact getLast?_map f (b :: t)

theorem lastLineDT_ok_none (cur : List String)
    (h : lastLineDT cur = Except.ok none) : cur = [] := by
  unfold lastLineDT at h
  rcases hg : cur.getLast? with _ | l
  · exact List.getLast?_eq_none_iff.mp hg
  · rw [hg] at h
    dsimp only at h
    rcases hd : lineDT l with _ | dt <;> rw [hd] at h <;> simp at h

theorem lastLineDT_ok_some (cur : List String) (hw : PyDateTime)
    (h : lastLineDT cur = Except.ok (some hw)) :
    ∃ l, cur.getLast? = some l ∧ lineDT l = some hw := by
  unfold lastLineDT at h
  rcases hg : cur.getLast? with _ | l
  · rw [hg] at h
    simp at h
  · rw [hg] at h
    dsimp only at h
    rcases hd : lineDT l with _ | dt <;> rw [hd] at h
    · simp at h
    · refine ⟨l, rfl, ?_⟩
      rw [hd]
      simp only [Except.ok.injEq, Option.some.injEq] at h
      rw [h]

theorem lineKeyD_fmt (ts c : String) (dt : PyDateTime) (h : strptime ts = some dt) :
    lineKeyD (fmtEntry (ts, c)) = dt.key := by
  unfold lineKeyD
  rw [lineDT_fmt ts c dt h]
  rfl

/-- One date partition, re-run against its own output: when the partition
is in non-decreasing timestamp order, the second pass skips every line and
leaves the store untouched. -/
theorem storeDate_idem (sp hk : String) (g1 : FileSys) (d : String)
    (es : List (String × String)) (cur : List String) (hwm : Option PyDateTime)
    (hparse : ∀ e ∈ es, (strptime e.1).isSome = true)
    (hsorted : keysSorted (es.map entryKey) = true)
    (hlast : lastLineDT cur = Except.ok hwm)
    (hfile : g1 (mkPath sp hk d) = some (cur ++ (writeLoop hwm es).1)) :
    (storeDate sp hk g1 d es).2 = true ∧
      ∀ q, (storeDate sp hk g1 d es).1 q = g1 q := by
  rw [writeLoop_eq hwm es hparse] at hfile
  rcases hek : es.filter (fun e => keepB hwm e.1) with _ | ⟨e0, kept2⟩
  · rw [hek] at hfile
    simp only [List.map_nil, List.append_nil] at hfile
    have hok : lastLineDT ((g1 (mkPath sp hk d)).getD []) = Except.ok hwm := by
      rw [hfile]
      exact hlast
    constructor
    · rw [storeDate_ok sp hk g1 d es hwm hok, writeLoop_eq hwm es hparse]
    · intro q
      by_cases hq : q = mkPath sp hk d
      · rw [storeDate_ok sp hk g1 d es hwm hok, hq]
        show fsUpdate _ _ _ _ = _
        rw [fsUpdate_at, writeLoop_eq hwm es hparse, hek]
        simp only [List.map_nil, List.append_nil]
        rw [hfile]
        rfl
      · rw [storeDate_ok sp hk g1 d es hwm hok]
        show fsUpdate _ _ _ q = _
        rw [fsUpdate_frame _ _ _ _ hq]
        exact ensure_frame g1 _ q hq
  · have hkne : es.filter (fun e => keepB hwm e.1) ≠ [] := by rw [hek]; simp
    have hesne : es ≠ [] := by
      intro hnil
      rw [hnil] at hkne
      simp at hkne
    have hglast : (es.filter (fun e => keepB hwm e.1)).getLast? = es.getLast? := by
      cases hwm with
      | none =>
        have hall : es.filter (fun e => keepB none e.1) = es :=
          List.filter_eq_self.mpr (fun e he => by
            obtain ⟨dt, hdt⟩ := Option.isSome_iff_exists.mp (hparse e he)
            unfold keepB
            rw [hdt])
        rw [hall]
      | some hw => exact filter_getLast_of_sorted hw es hparse hsorted hkne
    obtain ⟨elast, helast⟩ := Option.isSome_iff_exists.mp
      (List.getLast?_isSome.mpr hesne)
    obtain ⟨dtl, hdtl⟩ := Option.isSome_iff_exists.mp
      (hparse elast (getLast?_mem_of_eq es elast helast))
    obtain ⟨lts, lc⟩ := elast
    have hlast2 : lastLineDT ((g1 (mkPath sp hk d)).getD []) = Except.ok (some dtl) := by
      rw [hfile]
      show lastLineDT (cur ++ (es.filter (fun e => keepB hwm e.1)).map fmtEntry) = _
      have hgl : (cur ++ (es.filter (fun e => keepB hwm e.1)).map fmtEntry).getLast? =
          some (fmtEntry (lts, lc)) := by
        rw [List.getLast?_append_of_ne_nil _ (by rw [hek]; simp)]
        rw [getLast?_map, hglast, helast]
        rfl
      unfold lastLineDT
      rw [hgl]
      dsimp only
      rw [lineDT_fmt lts lc dtl hdtl]
    have hskip : es.filter (fun e => keepB (some dtl) e.1) = [] := by
      rw [List.filter_eq_nil_iff]
      intro e he
      obtain ⟨dte, hdte⟩ := Option.isSome_iff_exists.mp (hparse e he)
      rw [keepB_of_parse _ _ _ hdte]
      have hlastk : (es.map entryKey).getLast? = some (entryKey (lts, lc)) := by
        rw [getLast?_map, helast]
        rfl
      have hxle := keysSorted_le_last (es.map entryKey) hsorted (entryKey (lts, lc))
        hlastk (entryKey e) (List.mem_map_of_mem entryKey he)
      rw [entryKey_of_parse e dte hdte, entryKey_of_parse (lts, lc) dtl hdtl] at hxle
      simp only [decide_eq_true_eq]
      omega
    constructor
    · rw [storeDate_ok sp hk g1 d es (some dtl) hlast2, writeLoop_eq (some dtl) es hparse]
    · intro q
      by_cases hq : q = mkPath sp hk d
      · rw [storeDate_ok sp hk g1 d es (some dtl) hlast2, hq]
        show fsUpdate _ _ _ _ = _
        rw [fsUpdate_at, writeLoop_eq (some dtl) es hparse, hskip]
        simp only [List.map_nil, List.append_nil]
        rcases hg1 : g1 (mkPath sp hk d) with _ | v
        · rw [hg1] at hfile
          simp at hfile
        · simp [hg1]
      · rw [storeDate_ok sp hk g1 d es (some dtl) hlast2]
        show fsUpdate _ _ _ q = _
        rw [fsUpdate_frame _ _ _ _ hq]
        exact ensure_frame g1 _ q hq

theorem storeLinesGo_cons_true (sp hk d : String) (es : List (String × String))
    (rest : List (String × List (String × String))) (g g' : FileSys)
    (h : storeLinesGo sp hk ((d, es) :: rest) g = (g', true)) :
    (storeDate sp hk g d es).2 = true ∧
      storeLinesGo sp hk rest (storeDate sp hk g d es).1 = (g', true) := by
  rw [storeLinesGo] at h
  split at h
  · rename_i hcond
    exact ⟨hcond, h⟩
  · rename_i hcond
    exact absurd (by rw [h]) hcond

theorem storeDate_snd_true (sp hk : String) (g : FileSys) (d : String)
    (es : List (String × String)) (h : (storeDate sp hk g d es).2 = true) :
    ∃ hwm, lastLineDT ((g (mkPath sp hk d)).getD []) = Except.ok hwm ∧
      (writeLoop hwm es).2 = true := by
  rcases hl : lastLineDT ((g (mkPath sp hk d)).getD []) with e | hwm
  · cases e
    rw [storeDate_err sp hk g d es hl] at h
    simp at h
  · rw [storeDate_ok sp hk g d es hwm hl] at h
    exact ⟨hwm, rfl, h⟩

/-- The whole second loop re-run against its own output: with sorted
partitions it succeeds and changes nothing. -/
theorem storeLinesGo_idem (sp hk : String) :
    ∀ (map : List (String × List (String × String))) (g1 : FileSys),
      (∀ de ∈ map,
        (∀ e ∈ de.2, (strptime e.1).isSome = true) ∧
        keysSorted (de.2.map entryKey) = true ∧
        ∃ cur hwm, lastLineDT cur = Except.ok hwm ∧
          g1 (mkPath sp hk de.1) = some (cur ++ (writeLoop hwm de.2).1)) →
      (storeLinesGo sp hk map g1).2 = true ∧
        ∀ q, (storeLinesGo sp hk map g1).1 q = g1 q := by
  intro map
  induction map with
  | nil => exact fun g1 _ => ⟨rfl, fun q => rfl⟩
  | cons de rest ih =>
    intro g1 hhyp
    obtain ⟨d, es⟩ := de
    obtain ⟨hparse, hsorted, cur, hwm, hlast, hfile⟩ := hhyp (d, es) (by simp)
    obtain ⟨hok, hpt⟩ := storeDate_idem sp hk g1 d es cur hwm hparse hsorted hlast hfile
    rw [storeLinesGo]
    simp only [hok, if_true]
    have hrest := ih (storeDate sp hk g1 d es).1 (fun de2 hde2 => by
      obtain ⟨hp2, hs2, cur2, hwm2, hl2, hf2⟩ := hhyp de2 (List.mem_cons_of_mem _ hde2)
      exact ⟨hp2, hs2, cur2, hwm2, hl2, by rw [hpt _]; exact hf2⟩)
    obtain ⟨hr2, hrpt⟩ := hrest
    exact ⟨hr2, fun q => by rw [hrpt q, hpt q]⟩

/-! ## Order preservation for sorted partitions -/

theorem fileSortedB_iff (ls : List String) :
    fileSortedB ls = true ↔
      (∀ l ∈ ls, (lineDT l).isSome = true) ∧ keysSorted (ls.map lineKeyD) = true := by
  unfold fileSortedB
  rw [Bool.and_eq_true, List.all_eq_true]

/-- One date partition preserves the non-decreasing timestamp order of
every file, provided the partition itself is sorted. -/
theorem storeDate_sorted (sp hk : String) (g : FileSys) (d : String)
    (es : List (String × String))
    (hparse : ∀ e ∈ es, (strptime e.1).isSome = true)
    (hsorted : keysSorted (es.map entryKey) = true)
    (hwm : Option PyDateTime)
    (hok : lastLineDT ((g (mkPath sp hk d)).getD []) = Except.ok hwm)
    (q : String) (hq : fileSortedB ((g q).getD []) = true) :
    fileSortedB (((storeDate sp hk g d es).1 q).getD []) = true := by
  by_cases hqp : q = mkPath sp hk d
  · rw [hqp] at hq
    rw [storeDate_ok sp hk g d es hwm hok, hqp]
    show fileSortedB ((fsUpdate _ _ _ _).getD []) = true
    rw [fsUpdate_at]
    show fileSortedB ((g (mkPath sp hk d)).getD [] ++ (writeLoop hwm es).1) = true
    rw [writeLoop_eq hwm es hparse]
    obtain ⟨hqsome, hqsorted⟩ := (fileSortedB_iff _).mp hq
    have hkeys : ((es.filter (fun e => keepB hwm e.1)).map fmtEntry).map lineKeyD =
        (es.filter (fun e => keepB hwm e.1)).map entryKey := by
      rw [List.map_map]
      apply List.map_congr_left
      intro e he
      obtain ⟨dt, hdt⟩ := Option.isSome_iff_exists.mp
        (hparse e (List.mem_filter.mp he).1)
      obtain ⟨ts, c⟩ := e
      show lineKeyD (fmtEntry (ts, c)) = entryKey (ts, c)
      rw [lineKeyD_fmt ts c dt hdt, entryKey_of_parse (ts, c) dt hdt]
    rw [fileSortedB_iff]
    constructor
    · intro l hl
      rcases List.mem_append.mp hl with hl | hl
      · exact hqsome l hl
      · obtain ⟨e, he, hfe⟩ := List.mem_map.mp hl
        obtain ⟨dt, hdt⟩ := Option.isSome_iff_exists.mp
          (hparse e (List.mem_filter.mp he).1)
        obtain ⟨ts, c⟩ := e
        rw [← hfe, lineDT_fmt ts c dt hdt]
        rfl
    · rw [List.map_append, hkeys]
      apply keysSorted_append
      · exact hqsorted
      · exact keysSorted_sublist _ _ (List.Sublist.map entryKey (List.filter_sublist es))
          hsorted
      · intro x hx y hy
        cases hwm with
        | none =>
          have hnil : (g (mkPath sp hk d)).getD [] = [] := lastLineDT_ok_none _ hok
          rw [hnil] at hx
          simp at hx
        | some hw =>
          obtain ⟨lastl, hlastl, hldt⟩ := lastLineDT_ok_some _ hw hok
          obtain ⟨e, he, hey⟩ := List.mem_map.mp hy
          obtain ⟨dte, hdte⟩ := Option.isSome_iff_exists.mp
            (hparse e (List.mem_filter.mp he).1)
          have hkeep := (List.mem_filter.mp he).2
          rw [keepB_of_parse _ _ _ hdte, decide_eq_true_eq] at hkeep
          have hxle : x ≤ hw.key := by
            have hglk : (((g (mkPath sp hk d)).getD []).map lineKeyD).getLast? =
                some hw.key := by
              rw [getLast?_map, hlastl]
              show some (lineKeyD lastl) = some hw.key
              unfold lineKeyD
              rw [hldt]
              rfl
            exact keysSorted_le_last _ hqsorted hw.key hglk x hx
          rw [← hey, entryKey_of_parse e dte hdte]
          omega
  · have hfr := storeDate_frame sp hk g d es q hqp
    rw [hfr]
    exact hq

/-- The whole second loop preserves file sortedness on every path, when
every partition is sorted and the call succeeds. -/
theorem storeLinesGo_sorted (sp hk : String) :
    ∀ (map : List (String × List (String × String))) (g g' : FileSys),
      storeLinesGo sp hk map g = (g', true) →
      (∀ de ∈ map, (∀ e ∈ de.2, (strptime e.1).isSome = true) ∧
        keysSorted (de.2.map entryKey) = true) →
      ∀ q, fileSortedB ((g q).getD []) = true → fileSortedB ((g' q).getD []) = true := by
  intro map
  induction map with
  | nil =>
    intro g g' hgo _ q hq
    rw [storeLinesGo] at hgo
    obtain ⟨h1, _⟩ := Prod.mk.inj hgo
    rw [← h1]
    exact hq
  | cons de rest ih =>
    intro g g' hgo hhyp q hq
    obtain ⟨d, es⟩ := de
    obtain ⟨hd2, hgo2⟩ := storeLinesGo_cons_true sp hk d es rest g g' hgo
    obtain ⟨hwm, hl, _⟩ := storeDate_snd_true sp hk g d es hd2
    obtain ⟨hparse, hsorted⟩ := hhyp (d, es) (by simp)
    refine ih (storeDate sp hk g d es).1 g' hgo2
      (fun de2 hde2 => hhyp de2 (List.mem_cons_of_mem _ hde2)) q ?_
    exact storeDate_sorted sp hk g d es hparse hsorted hwm hl q hq

/-! ## Splitting and joining content around pipes -/

theorem subAt_append (nd r : List Char) : subAt nd (nd ++ r) = true := by
  induction nd with
  | nil => rfl
  | cons a t ih => simp [subAt, ih]

theorem isSub_of_parts (nd pre post : List Char) :
    isSub nd (pre ++ (nd ++ post)) = true := by
  induction pre with
  | nil =>
    cases nd with
    | nil => cases post <;> simp [isSub, subAt]
    | cons a t =>
      rw [List.nil_append]
      rw [List.cons_append, isSub]
      rw [← List.cons_append, subAt_append]
      simp
  | cons x pre ih =>
    rw [List.cons_append, isSub, ih]
    simp

theorem splitCharP_flatten (p : Char → Bool) :
    ∀ (l : List Char), (splitCharP p l).flatten = l.filter (fun x => !p x)
  | [] => rfl
  | x :: xs => by
    rcases h : splitCharP p xs with _ | ⟨q, qs⟩
    · exact absurd h (splitCharP_ne_nil p xs)
    · have ih := splitCharP_flatten p xs
      rw [h] at ih
      by_cases hp : p x = true
      · simp only [splitCharP, h, if_pos hp, List.flatten_cons, List.nil_append,
          List.filter_cons, hp]
        simpa using ih
      · have hp' : p x = false := Bool.eq_false_iff.mpr hp
        simp only [splitCharP, h, hp', Bool.false_eq_true, if_false, List.flatten_cons,
          List.filter_cons, List.cons_append]
        rw [← List.flatten_cons, ih]
        simp [hp']

theorem splitCharP_drop_flatten (p : Char → Bool) :
    ∀ (l : List Char), ((splitCharP p l).drop 1).flatten =
      ((l.dropWhile (fun x => !p x)).drop 1).filter (fun x => !p x)
  | [] => rfl
  | x :: xs => by
    rcases h : splitCharP p xs with _ | ⟨q, qs⟩
    · exact absurd h (splitCharP_ne_nil p xs)
    · by_cases hp : p x = true
      · simp only [splitCharP, h, if_pos hp, List.drop_succ_cons, List.drop_zero,
          List.dropWhile_cons, hp, Bool.not_true, Bool.false_eq_true, if_false,
          List.drop_succ_cons]
        have hj := splitCharP_flatten p xs
        rw [h] at hj
        exact hj
      · have hp' : p x = false := Bool.eq_false_iff.mpr hp
        simp only [splitCharP, h, hp', Bool.false_eq_true, if_false,
          List.drop_succ_cons, List.drop_zero, List.dropWhile_cons, Bool.not_false,
          if_true]
        have ih := splitCharP_drop_flatten p xs
        rw [h] at ih
        simpa using ih

theorem string_join_map_mk (chunks : List (List Char)) :
    String.join (chunks.map String.mk) = String.mk chunks.flatten := by
  rw [String.join_eq]
  show String.mk ((chunks.map String.mk).map String.data).flatten = _
  rw [List.map_map]
  rw [show String.data ∘ String.mk = id from rfl, List.map_id]

theorem levels_no_pipe : ∀ lv ∈ levels, '|' ∉ lv.data := by decide

/-- C5's behaviour, stated independently of `split`/`join`: with a marker
present anywhere, the stored content is the region after the first `|`
with every remaining `|` removed. -/
theorem transformContent_of_level (c : String) (hlv : hasLevel c = true) :
    transformContent c =
      String.mk (((c.data.dropWhile (fun x => !(decide (x = '|')))).drop 1).filter
        (fun x => !(decide (x = '|')))) := by
  unfold transformContent
  rw [if_pos hlv]
  unfold pySplit
  rw [← List.map_drop, string_join_map_mk, splitCharP_drop_flatten]

theorem transformContent_no_level (c : String) (h : hasLevel c = false) :
    transformContent c = c := by
  unfold transformContent
  simp [h]

theorem hasLevel_of_decomp (c lv mid rest : String) (hlv : lv ∈ levels)
    (hc : c = lv ++ mid ++ "|" ++ rest) : hasLevel c = true := by
  unfold hasLevel
  rw [List.any_eq_true]
  refine ⟨lv, hlv, ?_⟩
  rw [hc]
  rw [show (lv ++ mid ++ "|" ++ rest).data =
        [] ++ (lv.data ++ (mid.data ++ '|' :: rest.data)) by
      simp [String.data_append, show ("|" : String).data = ['|'] from rfl]]
  exact isSub_of_parts _ _ _

/-- C4's behaviour for a pipe-delimited marker: the stored content
is the part after the first `|` with all later pipes removed. -/
theorem transformContent_decomp (c lv mid rest : String) (hlv : lv ∈ levels)
    (hc : c = lv ++ mid ++ "|" ++ rest) (hmid : '|' ∉ mid.data) :
    transformContent c =
      String.mk (rest.data.filter (fun x => !(decide (x = '|')))) := by
  unfold transformContent
  rw [if_pos (hasLevel_of_decomp c lv mid rest hlv hc)]
  unfold pySplit
  rw [hc]
  rw [show (lv ++ mid ++ "|" ++ rest).data =
        (lv.data ++ mid.data) ++ '|' :: rest.data by
      simp [String.data_append, show ("|" : String).data = ['|'] from rfl]]
  have hfree : ∀ x ∈ lv.data ++ mid.data, decide (x = '|') = false := by
    intro x hx
    rcases List.mem_append.mp hx with hx | hx
    · exact decide_eq_false (fun he => levels_no_pipe lv hlv (he ▸ hx))
    · exact decide_eq_false (fun he => hmid (he ▸ hx))
  rw [splitCharP_append_sep _ _ _ _ hfree (by decide)]
  rw [List.map_cons, List.drop_succ_cons, List.drop_zero, string_join_map_mk,
    splitCharP_flatten]

/-- `store_lines` of a single line into an empty store. -/
theorem store_lines_single (sp hk ts c : String) (dt : PyDateTime)
    (hdt : strptime ts = some dt) :
    ∃ g', store_lines sp hk [(ts, c)] emptyFS = some g' ∧
      g' (mkPath sp hk (dateOf ts)) = some [ts ++ " | " ++ transformContent c] ∧
      ∀ q, q ≠ mkPath sp hk (dateOf ts) → g' q = none := by
  have hb : buildMap [(ts, c)] = [(dateOf ts, [(ts, transformContent c)])] := rfl
  have hw : writeLoop none [(ts, transformContent c)] =
      ([fmtEntry (ts, transformContent c)], true) := by
    simp only [writeLoop, hdt]
    simp
  have hok : lastLineDT ((emptyFS (mkPath sp hk (dateOf ts))).getD []) =
      Except.ok none := rfl
  have hsd := storeDate_ok sp hk emptyFS (dateOf ts) [(ts, transformContent c)] none hok
  have hgo : storeLinesGo sp hk (buildMap [(ts, c)]) emptyFS =
      ((storeDate sp hk emptyFS (dateOf ts) [(ts, transformContent c)]).1, true) := by
    rw [hb, storeLinesGo]
    have h2 : (storeDate sp hk emptyFS (dateOf ts) [(ts, transformContent c)]).2 = true := by
      rw [hsd, hw]
    rw [if_pos h2]
    rfl
  refine ⟨_, (store_lines_iff sp hk [(ts, c)] emptyFS _).mpr hgo, ?_, ?_⟩
  · rw [hsd]
    show fsUpdate _ _ _ _ = _
    rw [fsUpdate_at, hw]
    rfl
  · intro q hq
    exact storeDate_frame sp hk emptyFS (dateOf ts) [(ts, transformContent c)] q hq

/-! ## Claim theorems -/

/-- C3: for every date partition of a batch and every existing target file
whose last line carries timestamp `T`, a successful `store_lines` appends
exactly the partition lines whose timestamp parses strictly greater than
`T`, in their original relative order, and silently skips the rest. -/
theorem c3_high_water_filter (sp hk : String) (b : List (String × String))
    (g g' : FileSys) (d : String) (es : List (String × String)) (T : PyDateTime)
    (hs : store_lines sp hk b g = some g')
    (hmem : (d, es) ∈ buildMap b)
    (hlast : lastLineDT ((g (mkPath sp hk d)).getD []) = Except.ok (some T)) :
    g' (mkPath sp hk d) =
      some ((g (mkPath sp hk d)).getD [] ++
        (es.filter (fun e => keepB (some T) e.1)).map fmtEntry) := by
  obtain ⟨_, hspec⟩ := store_lines_file_spec sp hk b g g' hs
  obtain ⟨hwm, hl2, hw2, hat⟩ := hspec (d, es) hmem
  rw [hlast] at hl2
  have heq : some T = hwm := Except.ok.inj hl2
  rw [← heq] at hat hw2
  rw [hat, writeLoop_eq (some T) es (writeLoop_ok_parse (some T) es hw2)]

/-- C7: an existing but empty date file yields no high-water mark from
`get_last_store_line_datetime`, and `store_lines` then appends the whole
partition of that date, regardless of timestamp values. -/
theorem c7_empty_file_appends_all (sp hk : String) (b : List (String × String))
    (g g' : FileSys) (d : String) (es : List (String × String))
    (hs : store_lines sp hk b g = some g')
    (hmem : (d, es) ∈ buildMap b)
    (hempty : g (mkPath sp hk d) = some []) :
    get_last_store_line_datetime sp g d hk = Except.ok none ∧
      g' (mkPath sp hk d) = some (es.map fmtEntry) := by
  constructor
  · unfold get_last_store_line_datetime
    rw [hempty]
    rfl
  · obtain ⟨_, hspec⟩ := store_lines_file_spec sp hk b g g' hs
    obtain ⟨hwm, hl2, hw2, hat⟩ := hspec (d, es) hmem
    rw [hempty] at hl2 hat
    have hnone : Except.ok (ε := Unit) none = Except.ok hwm := by
      rw [← hl2]
      rfl
    have heq : hwm = none := (Except.ok.inj hnone).symm
    rw [heq] at hat hw2
    have hparse := writeLoop_ok_parse none es hw2
    rw [hat, writeLoop_eq none es hparse]
    have hall : es.filter (fun e => keepB none e.1) = es :=
      List.filter_eq_self.mpr (fun e he => by
        obtain ⟨dte, hdte⟩ := Option.isSome_iff_exists.mp (hparse e he)
        unfold keepB
        rw [hdte])
    rw [hall]
    rfl

/-- C8: the store never rewrites or removes persisted content —
`ensure_file_exist` leaves an existing file (and the rest of the store)
unchanged, creates an empty file only when absent, is idempotent, and
`store_lines` (even when it raises after partial writes) only appends to
the ends of files. -/
theorem c8_append_only :
    (∀ (g : FileSys) (p : String) (l : List String), g p = some l →
      ensure_file_exist g p = g) ∧
    (∀ (g : FileSys) (p : String), g p = none →
      ensure_file_exist g p p = some [] ∧
        ∀ q, q ≠ p → ensure_file_exist g p q = g q) ∧
    (∀ (g : FileSys) (p q : String),
      ensure_file_exist (ensure_file_exist g p) p q = ensure_file_exist g p q) ∧
    (∀ (sp hk : String) (b : List (String × String)) (g : FileSys) (q : String),
      (storeLinesEx sp hk b g).1 q = g q ∨
        ∃ t, (storeLinesEx sp hk b g).1 q = some ((g q).getD [] ++ t)) := by
  have hsome : ∀ (g : FileSys) (p : String) (l : List String), g p = some l →
      ensure_file_exist g p = g := by
    intro g p l h
    unfold ensure_file_exist
    rw [h]
  refine ⟨hsome, ?_, ?_, ?_⟩
  · intro g p h
    unfold ensure_file_exist
    rw [h]
    exact ⟨fsUpdate_at g p [], fun q hq => fsUpdate_frame g p [] q hq⟩
  · intro g p q
    rcases hg : g p with _ | l
    · have h1 : ensure_file_exist g p = fsUpdate g p [] := by
        unfold ensure_file_exist
        rw [hg]
      rw [h1, hsome (fsUpdate g p []) p [] (fsUpdate_at g p [])]
    · rw [hsome g p l hg]
      exact congrFun (hsome g p l hg) q
  · exact storeLinesEx_append_only

/-- C9: every line persisted by `store_lines` is the timestamp, the
separator `" | "`, and the (possibly marker-stripped) content, written
into `<store_root>/<owner_key>/<date>.log` for that line's date (the
line terminator is the line boundary of the file model). -/
theorem c9_line_format (sp hk : String) (b : List (String × String))
    (g g' : FileSys) (hs : store_lines sp hk b g = some g') :
    ∀ q, g' q = g q ∨
      ∃ d t, q = mkPath sp hk d ∧ g' q = some ((g q).getD [] ++ t) ∧
        ∀ l ∈ t, ∃ e ∈ b, dateOf e.1 = d ∧
          l = e.1 ++ " | " ++ transformContent e.2 := by
  intro q
  obtain ⟨hframe, hspec⟩ := store_lines_file_spec sp hk b g g' hs
  by_cases hq : ∀ d ∈ (buildMap b).map Prod.fst, q ≠ mkPath sp hk d
  · exact Or.inl (hframe q hq)
  · right
    push_neg at hq
    obtain ⟨d, hd, hqe⟩ := hq
    obtain ⟨de, hde, hde1⟩ := List.mem_map.mp hd
    obtain ⟨hwm, hl2, hw2, hat⟩ := hspec de hde
    obtain ⟨hes, _⟩ := buildMap_mem_eq b de.1 de.2 (by
      rw [show (de.1, de.2) = de from rfl]
      exact hde)
    refine ⟨de.1, (writeLoop hwm de.2).1, by rw [← hde1] at hqe; exact hqe, ?_, ?_⟩
    · rw [← hde1] at hqe
      rw [hqe, hat]
    · intro l hl
      rw [writeLoop_eq hwm de.2 (writeLoop_ok_parse hwm de.2 hw2)] at hl
      obtain ⟨e2, he2, hfe⟩ := List.mem_map.mp hl
      have he2' : e2 ∈ de.2 := (List.mem_filter.mp he2).1
      rw [hes] at he2'
      unfold tfd at he2'
      obtain ⟨e, hef, hee⟩ := List.mem_map.mp he2'
      obtain ⟨heb, hedate⟩ := List.mem_filter.mp hef
      refine ⟨e, heb, of_decide_eq_true hedate, ?_⟩
      rw [← hfe, ← hee]
      rfl

/-- C6: a batch spanning exactly the two distinct dates `d1` and `d2`,
stored into a fresh store, writes two distinct per-date files, each
receiving exactly the lines of its own date, in their arrival order, and
touches no other path. -/
theorem c6_two_date_partition (sp hk : String) (b : List (String × String))
    (g' : FileSys) (d1 d2 : String) (hne : d1 ≠ d2)
    (hd : ∀ e ∈ b, dateOf e.1 = d1 ∨ dateOf e.1 = d2)
    (h1 : ∃ e ∈ b, dateOf e.1 = d1) (h2 : ∃ e ∈ b, dateOf e.1 = d2)
    (hs : store_lines sp hk b emptyFS = some g') :
    mkPath sp hk d1 ≠ mkPath sp hk d2 ∧
      g' (mkPath sp hk d1) =
        some ((b.filter (fun e => decide (dateOf e.1 = d1))).map
          (fun e => e.1 ++ " | " ++ transformContent e.2)) ∧
      g' (mkPath sp hk d2) =
        some ((b.filter (fun e => decide (dateOf e.1 = d2))).map
          (fun e => e.1 ++ " | " ++ transformContent e.2)) ∧
      ∀ q, q ≠ mkPath sp hk d1 → q ≠ mkPath sp hk d2 → g' q = none := by
  obtain ⟨hframe, hspec⟩ := store_lines_file_spec sp hk b emptyFS g' hs
  have hfile : ∀ d0, (∃ e ∈ b, dateOf e.1 = d0) →
      g' (mkPath sp hk d0) =
        some ((b.filter (fun e => decide (dateOf e.1 = d0))).map
          (fun e => e.1 ++ " | " ++ transformContent e.2)) := by
    intro d0 hex
    have hmem := buildMap_mem_of_date b d0 hex
    obtain ⟨hwm, hl2, hw2, hat⟩ := hspec (d0, tfd b d0) hmem
    have hnone : hwm = none := by
      have hx : Except.ok (ε := Unit) none = Except.ok hwm := by
        rw [← hl2]
        rfl
      exact (Except.ok.inj hx).symm
    rw [hnone] at hat hw2
    have hparse := writeLoop_ok_parse none (tfd b d0) hw2
    rw [hat, writeLoop_eq none _ hparse]
    have hall : (tfd b d0).filter (fun e => keepB none e.1) = tfd b d0 :=
      List.filter_eq_self.mpr (fun e he => by
        obtain ⟨dte, hdte⟩ := Option.isSome_iff_exists.mp (hparse e he)
        unfold keepB
        rw [hdte])
    rw [hall]
    unfold tfd
    rw [List.map_map]
    rfl
  refine ⟨fun he => hne (mkPath_inj sp hk d1 d2 he), hfile d1 h1, hfile d2 h2, ?_⟩
  intro q hq1 hq2
  have hq : ∀ d ∈ (buildMap b).map Prod.fst, q ≠ mkPath sp hk d := by
    intro d hdm
    obtain ⟨de, hde, hde1⟩ := List.mem_map.mp hdm
    obtain ⟨hes, htne⟩ := buildMap_mem_eq b de.1 de.2 (by
      rw [show (de.1, de.2) = de from rfl]
      exact hde)
    obtain ⟨x, hx⟩ := List.exists_mem_of_ne_nil _ htne
    unfold tfd at hx
    obtain ⟨e, hef, _⟩ := List.mem_map.mp hx
    obtain ⟨heb, hedate⟩ := List.mem_filter.mp hef
    have hdd : dateOf e.1 = de.1 := of_decide_eq_true hedate
    rcases hd e heb with hcase | hcase
    · rw [← hde1, ← hdd, hcase]
      exact hq1
    · rw [← hde1, ← hdd, hcase]
      exact hq2
  rw [hframe q hq]
  rfl

/-- C4, counterexample: a content carrying the marker `INFO` as a
pipe-delimited prefix but containing a second `|` is stored as `" ab"`,
not as the content following the first `|` (which is `" a|b"`): the join
step drops the later pipes. -/
theorem c4_counterexample :
    ∃ g', store_lines "s" "h" [("2024-01-01T00:00:00.000000", "INFO | a|b")]
        emptyFS = some g' ∧
      g' (mkPath "s" "h" "2024-01-01") =
        some ["2024-01-01T00:00:00.000000 |  ab"] ∧
      some ["2024-01-01T00:00:00.000000 |  ab"] ≠
        some ["2024-01-01T00:00:00.000000 |  a|b"] :=
  ⟨_, rfl, rfl, by decide⟩

/-- C4, amended: a content starting with a recognized marker followed by
a pipe is stored as the concatenation, without separator, of the segments
after the first `|` (equal to the content after the first `|` only when
no further `|` occurs); a content containing no marker anywhere is stored
unchanged. -/
theorem c4_marker_strip (sp hk ts : String) (dt : PyDateTime)
    (hdt : strptime ts = some dt) :
    (∀ c lv mid rest, lv ∈ levels → c = lv ++ mid ++ "|" ++ rest →
      '|' ∉ mid.data →
      ∃ g', store_lines sp hk [(ts, c)] emptyFS = some g' ∧
        g' (mkPath sp hk (dateOf ts)) =
          some [ts ++ " | " ++
            String.mk (rest.data.filter (fun x => !(decide (x = '|'))))]) ∧
    (∀ c, hasLevel c = false →
      ∃ g', store_lines sp hk [(ts, c)] emptyFS = some g' ∧
        g' (mkPath sp hk (dateOf ts)) = some [ts ++ " | " ++ c]) := by
  constructor
  · intro c lv mid rest hlv hc hmid
    obtain ⟨g', hg', hat, _⟩ := store_lines_single sp hk ts c dt hdt
    refine ⟨g', hg', ?_⟩
    rw [hat, transformContent_decomp c lv mid rest hlv hc hmid]
  · intro c hno
    obtain ⟨g', hg', hat, _⟩ := store_lines_single sp hk ts c dt hdt
    refine ⟨g', hg', ?_⟩
    rw [hat, transformContent_no_level c hno]

/-- C5: a content containing any marker as a substring anywhere is stored
as the region after the first `|` with every remaining `|` removed,
concatenated without separator; in particular a marker-bearing content
with no `|` at all is stored as the empty string. -/
theorem c5_marker_anywhere (sp hk ts c : String) (dt : PyDateTime)
    (hdt : strptime ts = some dt) (hlv : hasLevel c = true) :
    (∃ g', store_lines sp hk [(ts, c)] emptyFS = some g' ∧
      g' (mkPath sp hk (dateOf ts)) =
        some [ts ++ " | " ++
          String.mk (((c.data.dropWhile (fun x => !(decide (x = '|')))).drop 1).filter
            (fun x => !(decide (x = '|'))))]) ∧
    ('|' ∉ c.data →
      ∃ g', store_lines sp hk [(ts, c)] emptyFS = some g' ∧
        g' (mkPath sp hk (dateOf ts)) = some [ts ++ " | " ++ ""]) := by
  constructor
  · obtain ⟨g', hg', hat, _⟩ := store_lines_single sp hk ts c dt hdt
    refine ⟨g', hg', ?_⟩
    rw [hat, transformContent_of_level c hlv]
  · intro hnp
    obtain ⟨g', hg', hat, _⟩ := store_lines_single sp hk ts c dt hdt
    refine ⟨g', hg', ?_⟩
    rw [hat, transformContent_of_level c hlv]
    have hdrop : c.data.dropWhile (fun x => !(decide (x = '|'))) = [] := by
      rw [List.dropWhile_eq_nil_iff]
      intro x hx
      have hxe : x ≠ '|' := fun he => hnp (he ▸ hx)
      simp [hxe]
    rw [hdrop]
    rfl

/-- C1, counterexample: an out-of-order batch re-run against its own
output appends again — after the first run the file's last line carries
the smaller timestamp, so the earlier, larger-timestamped line passes the
high-water test a second time. -/
theorem c1_counterexample :
    ∃ g1 g2, store_lines "s" "h" ceBatch emptyFS = some g1 ∧
      store_lines "s" "h" ceBatch g1 = some g2 ∧
      g1 (mkPath "s" "h" "2024-01-01") =
        some ["2024-01-01T10:00:01.000000 | a", "2024-01-01T10:00:00.000000 | b"] ∧
      g2 (mkPath "s" "h" "2024-01-01") =
        some ["2024-01-01T10:00:01.000000 | a", "2024-01-01T10:00:00.000000 | b",
          "2024-01-01T10:00:01.000000 | a"] ∧
      g2 (mkPath "s" "h" "2024-01-01") ≠ g1 (mkPath "s" "h" "2024-01-01") :=
  ⟨_, _, rfl, rfl, rfl, rfl, by decide⟩

/-- C1, amended: re-running `store_lines` with an identical batch against
the unchanged resulting store appends zero lines, provided every date
partition of the batch is in non-decreasing parsed-timestamp order. -/
theorem c1_idempotent_sorted (sp hk : String) (b : List (String × String))
    (g g1 : FileSys) (hs : store_lines sp hk b g = some g1)
    (hsorted : batchSortedB b = true) :
    ∃ g2, store_lines sp hk b g1 = some g2 ∧ ∀ q, g2 q = g1 q := by
  obtain ⟨hframe, hspec⟩ := store_lines_file_spec sp hk b g g1 hs
  have hhyp : ∀ de ∈ buildMap b,
      (∀ e ∈ de.2, (strptime e.1).isSome = true) ∧
      keysSorted (de.2.map entryKey) = true ∧
      ∃ cur hwm, lastLineDT cur = Except.ok hwm ∧
        g1 (mkPath sp hk de.1) = some (cur ++ (writeLoop hwm de.2).1) := by
    intro de hde
    obtain ⟨hwm, hl2, hw2, hat⟩ := hspec de hde
    exact ⟨writeLoop_ok_parse hwm de.2 hw2, List.all_eq_true.mp hsorted de hde,
      (g (mkPath sp hk de.1)).getD [], hwm, hl2, hat⟩
  obtain ⟨h2, hpt⟩ := storeLinesGo_idem sp hk (buildMap b) g1 hhyp
  refine ⟨(storeLinesGo sp hk (buildMap b) g1).1, ?_, hpt⟩
  rw [store_lines_iff]
  rcases hgo : storeLinesGo sp hk (buildMap b) g1 with ⟨ga, ok⟩
  rw [hgo] at h2
  simp only at h2
  simp [h2]

/-- C2, counterexample: the (vacuously sorted) empty file, after one call
with an out-of-order batch, holds lines in decreasing timestamp order —
the write loop compares only against the pre-call last line, not against
the lines it has just appended. -/
theorem c2_counterexample :
    ∃ g1, store_lines "s" "h" ceBatch emptyFS = some g1 ∧
      fileSortedB ((emptyFS (mkPath "s" "h" "2024-01-01")).getD []) = true ∧
      fileSortedB ((g1 (mkPath "s" "h" "2024-01-01")).getD []) = false :=
  ⟨_, rfl, rfl, by decide⟩

/-- C2, amended: a single call of `store_lines` whose date partitions are
each in non-decreasing parsed-timestamp order preserves the
non-decreasing timestamp order of every file in the store. -/
theorem c2_order_preserved (sp hk : String) (b : List (String × String))
    (g g' : FileSys) (hs : store_lines sp hk b g = some g')
    (hsorted : batchSortedB b = true) :
    ∀ q, fileSortedB ((g q).getD []) = true →
      fileSortedB ((g' q).getD []) = true := by
  have hgo := (store_lines_iff sp hk b g g').mp hs
  refine storeLinesGo_sorted sp hk (buildMap b) g g' hgo ?_
  intro de hde
  obtain ⟨_, hspec⟩ := store_lines_file_spec sp hk b g g' hs
  obtain ⟨hwm, _, hw2, _⟩ := hspec de hde
  exact ⟨writeLoop_ok_parse hwm de.2 hw2, List.all_eq_true.mp hsorted de hde⟩

/-- C10, counterexample: a run whose store raises mid-batch leaves its
partial append behind, and a later run of the same owner deduplicates
against it — the failing run does affect the other run's processing
(the final file differs from the cycle without the failing run), even
though the later run is still processed. -/
theorem c10_counterexample :
    (execute fetchCE "s" [⟨"r1", some "h"⟩, ⟨"r2", some "h"⟩] emptyFS).2 =
      [false, true] ∧
    (execute fetchCE "s" [⟨"r1", some "h"⟩, ⟨"r2", some "h"⟩] emptyFS).1
        (mkPath "s" "h" "2024-01-01") =
      some ["2024-01-01T10:00:01.000000 | a"] ∧
    (execute fetchCE "s" [⟨"r2", some "h"⟩] emptyFS).1
        (mkPath "s" "h" "2024-01-01") =
      some ["2024-01-01T10:00:00.000000 | c"] ∧
    (execute fetchCE "s" [⟨"r1", some "h"⟩, ⟨"r2", some "h"⟩] emptyFS).1
        (mkPath "s" "h" "2024-01-01") ≠
      (execute fetchCE "s" [⟨"r2", some "h"⟩] emptyFS).1
        (mkPath "s" "h" "2024-01-01") :=
  ⟨rfl, rfl, rfl, by decide⟩

/-- C10, amended: every run of a cycle is attempted (one outcome per run,
in order), and a run whose fetch raises is caught and leaves the
processing of all other runs — and the final store — exactly as if the
failing run were absent. (A failing store, by contrast, may leave partial
appends behind, as the counterexample shows.) -/
theorem c10_error_isolation (fetch : String → Option (List (String × String)))
    (sp : String) (g : FileSys) :
    (∀ runs, (execute fetch sp runs g).2.length = runs.length) ∧
    (∀ pre r post, fetch r.id = none →
      (execute fetch sp (pre ++ r :: post) g).1 =
        (execute fetch sp (pre ++ post) g).1 ∧
      (execute fetch sp (pre ++ r :: post) g).2 =
        (execute fetch sp pre g).2 ++
          false :: (execute fetch sp post (execute fetch sp pre g).1).2 ∧
      (execute fetch sp (pre ++ post) g).2 =
        (execute fetch sp pre g).2 ++
          (execute fetch sp post (execute fetch sp pre g).1).2) := by
  refine ⟨fun runs => execute_length fetch sp runs g, ?_⟩
  intro pre r post hf
  have ha1 := execute_append fetch sp pre (r :: post) g
  have ha2 := execute_append fetch sp pre post g
  have hstep : execute fetch sp (r :: post) (execute fetch sp pre g).1 =
      ((execute fetch sp post (execute fetch sp pre g).1).1,
        false :: (execute fetch sp post (execute fetch sp pre g).1).2) := by
    rw [execute, processRun_fail fetch sp _ r hf]
  refine ⟨?_, ?_, ?_⟩
  · rw [ha1, ha2, hstep]
  · rw [ha1, hstep]
  · rw [ha2]

/-! ## Witnesses -/

theorem c3_witness :
    ∃ g', store_lines "s" "h"
        [("2024-01-01T10:00:01.000000", "a"), ("2024-01-01T09:00:00.000000", "b")]
        (fsUpdate emptyFS (mkPath "s" "h" "2024-01-01")
          ["2024-01-01T10:00:00.000000 | x"]) = some g' ∧
      g' (mkPath "s" "h" "2024-01-01") =
        some ["2024-01-01T10:00:00.000000 | x", "2024-01-01T10:00:01.000000 | a"] := by
  obtain ⟨g', hg'⟩ : ∃ g', store_lines "s" "h"
      [("2024-01-01T10:00:01.000000", "a"), ("2024-01-01T09:00:00.000000", "b")]
      (fsUpdate emptyFS (mkPath "s" "h" "2024-01-01")
        ["2024-01-01T10:00:00.000000 | x"]) = some g' := ⟨_, rfl⟩
  refine ⟨g', hg', ?_⟩
  have h := c3_high_water_filter "s" "h"
    [("2024-01-01T10:00:01.000000", "a"), ("2024-01-01T09:00:00.000000", "b")]
    (fsUpdate emptyFS (mkPath "s" "h" "2024-01-01")
      ["2024-01-01T10:00:00.000000 | x"]) g' "2024-01-01"
    [("2024-01-01T10:00:01.000000", "a"), ("2024-01-01T09:00:00.000000", "b")]
    ⟨2024, 1, 1, 10, 0, 0, 0⟩ hg' (by decide) rfl
  rw [h]
  rfl

theorem c7_witness :
    ∃ g', store_lines "s" "h" [("2024-01-01T10:00:00.000000", "x")]
        (fsUpdate emptyFS (mkPath "s" "h" "2024-01-01") []) = some g' ∧
      get_last_store_line_datetime "s"
        (fsUpdate emptyFS (mkPath "s" "h" "2024-01-01") []) "2024-01-01" "h" =
        Except.ok none ∧
      g' (mkPath "s" "h" "2024-01-01") =
        some ["2024-01-01T10:00:00.000000 | x"] := by
  obtain ⟨g', hg'⟩ : ∃ g', store_lines "s" "h" [("2024-01-01T10:00:00.000000", "x")]
      (fsUpdate emptyFS (mkPath "s" "h" "2024-01-01") []) = some g' := ⟨_, rfl⟩
  obtain ⟨ha, hb⟩ := c7_empty_file_appends_all "s" "h"
    [("2024-01-01T10:00:00.000000", "x")]
    (fsUpdate emptyFS (mkPath "s" "h" "2024-01-01") []) g' "2024-01-01"
    [("2024-01-01T10:00:00.000000", "x")] hg' (by decide) (by decide)
  refine ⟨g', hg', ha, ?_⟩
  rw [hb]
  rfl

theorem c8_witness :
    ensure_file_exist (fsUpdate emptyFS "s/h/x.log" ["l"]) "s/h/x.log" =
      fsUpdate emptyFS "s/h/x.log" ["l"] ∧
    ((storeLinesEx "s" "h" [("2024-01-01T10:00:00.000000", "x")] emptyFS).1 "q0" =
        emptyFS "q0" ∨
      ∃ t, (storeLinesEx "s" "h" [("2024-01-01T10:00:00.000000", "x")] emptyFS).1 "q0" =
        some ((emptyFS "q0").getD [] ++ t)) :=
  ⟨c8_append_only.1 (fsUpdate emptyFS "s/h/x.log" ["l"]) "s/h/x.log" ["l"]
      (by decide),
    c8_append_only.2.2.2 "s" "h" [("2024-01-01T10:00:00.000000", "x")] emptyFS "q0"⟩

theorem c9_witness :
    ∃ g', store_lines "s" "h" [("2024-01-01T10:00:00.000000", "m")] emptyFS = some g' ∧
      (g' (mkPath "s" "h" "2024-01-01") = emptyFS (mkPath "s" "h" "2024-01-01") ∨
        ∃ d t, mkPath "s" "h" "2024-01-01" = mkPath "s" "h" d ∧
          g' (mkPath "s" "h" "2024-01-01") =
            some ((emptyFS (mkPath "s" "h" "2024-01-01")).getD [] ++ t) ∧
          ∀ l ∈ t, ∃ e ∈ [("2024-01-01T10:00:00.000000", "m")], dateOf e.1 = d ∧
            l = e.1 ++ " | " ++ transformContent e.2) := by
  obtain ⟨g', hg'⟩ : ∃ g', store_lines "s" "h"
      [("2024-01-01T10:00:00.000000", "m")] emptyFS = some g' := ⟨_, rfl⟩
  exact ⟨g', hg',
    c9_line_format "s" "h" [("2024-01-01T10:00:00.000000", "m")] emptyFS g' hg'
      (mkPath "s" "h" "2024-01-01")⟩

theorem c6_witness :
    ∃ g', store_lines "s" "h"
        [("2024-01-01T10:00:00.000000", "a"), ("2024-01-02T00:00:00.000000", "b")]
        emptyFS = some g' ∧
      mkPath "s" "h" "2024-01-01" ≠ mkPath "s" "h" "2024-01-02" ∧
      g' (mkPath "s" "h" "2024-01-01") = some ["2024-01-01T10:00:00.000000 | a"] ∧
      g' (mkPath "s" "h" "2024-01-02") = some ["2024-01-02T00:00:00.000000 | b"] := by
  obtain ⟨g', hg'⟩ : ∃ g', store_lines "s" "h"
      [("2024-01-01T10:00:00.000000", "a"), ("2024-01-02T00:00:00.000000", "b")]
      emptyFS = some g' := ⟨_, rfl⟩
  obtain ⟨hne, ha, hb, _⟩ := c6_two_date_partition "s" "h"
    [("2024-01-01T10:00:00.000000", "a"), ("2024-01-02T00:00:00.000000", "b")]
    g' "2024-01-01" "2024-01-02" (by decide) (by decide) (by decide) (by decide) hg'
  refine ⟨g', hg', hne, ?_, ?_⟩
  · rw [ha]
    rfl
  · rw [hb]
    rfl

theorem c4_witness :
    ∃ g', store_lines "s" "h"
        [("2024-01-01T10:00:00.000000", "INFO | a|b")] emptyFS = some g' ∧
      g' (mkPath "s" "h" (dateOf "2024-01-01T10:00:00.000000")) =
        some ["2024-01-01T10:00:00.000000" ++ " | " ++
          String.mk (" a|b".data.filter (fun x => !(decide (x = '|'))))] :=
  (c4_marker_strip "s" "h" "2024-01-01T10:00:00.000000" ⟨2024, 1, 1, 10, 0, 0, 0⟩
      (by decide)).1
    "INFO | a|b" "INFO" " " " a|b" (by decide) (by decide) (by decide)

theorem c5_witness :
    ∃ g', store_lines "s" "h"
        [("2024-01-01T10:00:00.000000", "no pipe DEBUG here")] emptyFS = some g' ∧
      g' (mkPath "s" "h" (dateOf "2024-01-01T10:00:00.000000")) =
        some ["2024-01-01T10:00:00.000000" ++ " | " ++ ""] :=
  (c5_marker_anywhere "s" "h" "2024-01-01T10:00:00.000000" "no pipe DEBUG here"
      ⟨2024, 1, 1, 10, 0, 0, 0⟩ (by decide) (by decide)).2 (by decide)

theorem c1_witness :
    ∃ g1 g2, store_lines "s" "h"
        [("2024-01-01T10:00:00.000000", "a"), ("2024-01-01T10:00:01.000000", "b")]
        emptyFS = some g1 ∧
      store_lines "s" "h"
        [("2024-01-01T10:00:00.000000", "a"), ("2024-01-01T10:00:01.000000", "b")]
        g1 = some g2 ∧
      g2 (mkPath "s" "h" "2024-01-01") = g1 (mkPath "s" "h" "2024-01-01") := by
  obtain ⟨g1, hg1⟩ : ∃ g1, store_lines "s" "h"
      [("2024-01-01T10:00:00.000000", "a"), ("2024-01-01T10:00:01.000000", "b")]
      emptyFS = some g1 := ⟨_, rfl⟩
  obtain ⟨g2, hg2, hpt⟩ := c1_idempotent_sorted "s" "h"
    [("2024-01-01T10:00:00.000000", "a"), ("2024-01-01T10:00:01.000000", "b")]
    emptyFS g1 hg1 (by decide)
  exact ⟨g1, g2, hg1, hg2, hpt (mkPath "s" "h" "2024-01-01")⟩

theorem c2_witness :
    ∃ g', store_lines "s" "h"
        [("2024-01-01T10:00:00.000000", "a"), ("2024-01-01T10:00:01.000000", "b")]
        emptyFS = some g' ∧
      fileSortedB ((g' (mkPath "s" "h" "2024-01-01")).getD []) = true := by
  obtain ⟨g', hg'⟩ : ∃ g', store_lines "s" "h"
      [("2024-01-01T10:00:00.000000", "a"), ("2024-01-01T10:00:01.000000", "b")]
      emptyFS = some g' := ⟨_, rfl⟩
  exact ⟨g', hg',
    c2_order_preserved "s" "h"
      [("2024-01-01T10:00:00.000000", "a"), ("2024-01-01T10:00:01.000000", "b")]
      emptyFS g' hg' (by decide) (mkPath "s" "h" "2024-01-01") (by decide)⟩

theorem c10_witness :
    (execute (fun _ => none) "s" [⟨"r", none⟩] emptyFS).2.length = 1 ∧
    (execute (fun _ => none) "s" ([] ++ ⟨"r", none⟩ :: []) emptyFS).1 =
      (execute (fun _ => none) "s" ([] ++ []) emptyFS).1 := by
  have h := c10_error_isolation (fun _ => none) "s" emptyFS
  exact ⟨h.1 [⟨"r", none⟩], (h.2 [] ⟨"r", none⟩ [] rfl).1⟩

end WandbCrawler
